import Mathlib

/-!
Verification development for the mcpy/mcpyrate macro-expansion engine.

The definitions below are a shallow embedding of the repository's code:

* `src/mcpy/visitors.py` (BaseMacroExpander: visit, and the expansion
  postprocessing of macro output),
* `src/mcpy/expander.py` (MacroExpander: the four invocation shapes,
  decorator chains, identifier macros, and macro-import discovery),
* `src/mcpy/dialects.py` (DialectExpander: source-level and AST-level
  whole-module transforms),
* `src/mcpy/splicing.py` (splice_statements),
* `src/mcpyrate/importer.py` (path_xstats).

Python AST nodes are modelled by the inductive `Ast`; source-location
attributes (lineno, col_offset) are modelled by a single `Option Loc`
field ("both present" or "both missing", which is how the code treats
them).  Machine-level details (object identity for `copy.deepcopy`) are
modelled with explicit object-id tags where a claim needs them.
-/

/-- A source location: the pair of the lineno and col_offset AST attributes. -/
structure Loc where
  line : Nat
  col : Nat
deriving DecidableEq, Repr

/-- The default location `ast.fix_missing_locations` starts from (line 1, column 0). -/
def defaultLoc : Loc := ⟨1, 0⟩

/-- Python AST nodes, restricted to the shapes the expander inspects.

* `name`: ast.Name (a bare identifier).
* `subscript`: ast.Subscript; `sliceValue` is the code's subscript.slice.value.
* `withStmt`: ast.With with a single context item (the code reads items[0]);
  the optional-vars of the item are not observed by any claim and are omitted.
* `functionDef` and `classDef`: definitions carrying a decorator list and a body.
* `constant`: ast.Constant (`none` models Python None).
* `done`: the expander-internal Done marker wrapping an already-expanded subtree.
* `node`: any other node kind, with one list of children (a statement list). -/
inductive Ast where
  | name (id : String) (loc : Option Loc)
  | subscript (value : Ast) (sliceValue : Ast) (loc : Option Loc)
  | withStmt (contextExpr : Ast) (body : List Ast) (loc : Option Loc)
  | functionDef (defname : String) (decoratorList : List Ast) (body : List Ast) (loc : Option Loc)
  | classDef (defname : String) (decoratorList : List Ast) (body : List Ast) (loc : Option Loc)
  | constant (value : Option Int) (loc : Option Loc)
  | done (tree : Ast)
  | node (kind : String) (children : List Ast) (loc : Option Loc)
deriving Repr

/-- The location attributes of a node.  The Done marker is an attribute-less
internal wrapper, so it reports no location of its own. -/
def Ast.loc : Ast → Option Loc
  | .name _ l => l
  | .subscript _ _ l => l
  | .withStmt _ _ l => l
  | .functionDef _ _ _ l => l
  | .classDef _ _ _ l => l
  | .constant _ l => l
  | .done _ => none
  | .node _ _ l => l

/-- Replace a node's own location attributes (children untouched). -/
def Ast.setLoc : Ast → Loc → Ast
  | .name i _, l => .name i (some l)
  | .subscript v s _, l => .subscript v s (some l)
  | .withStmt c b _, l => .withStmt c b (some l)
  | .functionDef n d b _, l => .functionDef n d b (some l)
  | .classDef n d b _, l => .classDef n d b (some l)
  | .constant v _, l => .constant v (some l)
  | .done t, _ => .done t
  | .node k c _, l => .node k c (some l)

/-- ast.copy_location(new_node, old_node): copy the location attributes of
`old` onto `new` when `old` carries them; otherwise leave `new` as it is.
The copy overwrites any location `new` already had. -/
def copyLocation (new : Ast) (old : Ast) : Ast :=
  match old.loc with
  | some l => new.setLoc l
  | none => new

mutual

/-- ast.fix_missing_locations: fill in missing location attributes, each from
the nearest enclosing node that has them, starting from `parent`
(the top-level call uses line 1, column 0). -/
def fixMissingLocations (parent : Loc) : Ast → Ast
  | .name i l => .name i (some (l.getD parent))
  | .subscript v s l =>
      let here := l.getD parent
      .subscript (fixMissingLocations here v) (fixMissingLocations here s) (some here)
  | .withStmt c b l =>
      let here := l.getD parent
      .withStmt (fixMissingLocations here c) (fixMissingList here b) (some here)
  | .functionDef n d b l =>
      let here := l.getD parent
      .functionDef n (fixMissingList here d) (fixMissingList here b) (some here)
  | .classDef n d b l =>
      let here := l.getD parent
      .classDef n (fixMissingList here d) (fixMissingList here b) (some here)
  | .constant v l => .constant v (some (l.getD parent))
  | .done t => .done (fixMissingLocations parent t)
  | .node k c l =>
      let here := l.getD parent
      .node k (fixMissingList here c) (some here)

/-- fix_missing_locations over a list of children. -/
def fixMissingList (parent : Loc) : List Ast → List Ast
  | [] => []
  | t :: ts => fixMissingLocations parent t :: fixMissingList parent ts

end

mutual

/-- Every node of the tree carries location attributes (the Done marker is an
internal attribute-less wrapper and is looked through). -/
def Ast.allLocated : Ast → Bool
  | .name _ l => l.isSome
  | .subscript v s l => l.isSome && v.allLocated && s.allLocated
  | .withStmt c b l => l.isSome && c.allLocated && Ast.allLocatedList b
  | .functionDef _ d b l => l.isSome && Ast.allLocatedList d && Ast.allLocatedList b
  | .classDef _ d b l => l.isSome && Ast.allLocatedList d && Ast.allLocatedList b
  | .constant _ l => l.isSome
  | .done t => t.allLocated
  | .node _ c l => l.isSome && Ast.allLocatedList c

/-- `Ast.allLocated` over a list of children. -/
def Ast.allLocatedList : List Ast → Bool
  | [] => true
  | t :: ts => t.allLocated && Ast.allLocatedList ts

end

mutual

/-- The tree contains no expander-internal Done marker. -/
def Ast.noDone : Ast → Bool
  | .name _ _ => true
  | .subscript v s _ => v.noDone && s.noDone
  | .withStmt c b _ => c.noDone && Ast.noDoneList b
  | .functionDef _ d b _ => Ast.noDoneList d && Ast.noDoneList b
  | .classDef _ d b _ => Ast.noDoneList d && Ast.noDoneList b
  | .constant _ _ => true
  | .done _ => false
  | .node _ c _ => Ast.noDoneList c

/-- `Ast.noDone` over a list of children. -/
def Ast.noDoneList : List Ast → Bool
  | [] => true
  | t :: ts => t.noDone && Ast.noDoneList ts

end

/-- The result of NodeTransformer-style visiting, and of a macro function:
Python None ("delete this node" or "no replacement"), a single AST node,
or a list of AST nodes. -/
inductive VRes where
  | deleted
  | one (t : Ast)
  | many (ts : List Ast)
deriving Repr

/-- A macro argument: a single node (expr, decorator and name invocations)
or a statement list (block invocations). -/
inductive Trees where
  | one (t : Ast)
  | many (ts : List Ast)
deriving Repr

/-- A bound macro: the macro function (given the syntax-kind tag and the
argument tree(s)) together with its identifier-macro eligibility flag.
`nameMacroEligible` models the presence of the _isnamemacro attribute
set by the namemacro decorator in src/mcpy/expander.py. -/
structure MacroInfo where
  fn : String → Trees → VRes
  nameMacroEligible : Bool

/-- The binding table: macro name to macro function, as built by discovery. -/
abbrev Bindings := List (String × MacroInfo)

/-- MacroExpander.ismacroname: the identifier is bound in the binding table. -/
def ismacroname (B : Bindings) (i : String) : Bool :=
  (B.lookup i).isSome

/-- MacroExpander._detect_decorator_macros: split a decorator list into
(macros, others), preserving order within each subset.  A decorator is a
macro decorator when it is a bare Name bound in the binding table. -/
def isMacroDecoratorName (B : Bindings) : Ast → Bool
  | .name i _ => ismacroname B i
  | _ => false

/-- The (macros, others) pair of MacroExpander._detect_decorator_macros. -/
def detectDecoratorMacros (B : Bindings) (ds : List Ast) : List Ast × List Ast :=
  (ds.filter (isMacroDecoratorName B), ds.filter (fun d => !(isMacroDecoratorName B d)))

/-- The id of a macro decorator Name node (the code reads macro.id). -/
def decoId : Ast → String
  | .name i _ => i
  | _ => ""

/-- The negation of the code's local ismodified in MacroExpander.visit_Name:
the expansion result is still a bare Name carrying the macro's own name. -/
def isUnmodifiedName (macroname : String) : Ast → Bool
  | .name i _ => i == macroname
  | _ => false

/-- Failures of the embedded expander: `fuelExhausted` is the model's stand-in
for non-termination (the code does not bound expansion recursion), and
`malformed` stands for the code crashing or building a tree the host compiler
rejects (for example a list placed in a single-node field). -/
inductive EErr where
  | fuelExhausted
  | malformed
deriving DecidableEq, Repr

/-- One recorded decorator-macro invocation: the macro name, the argument it
was invoked on, and what it returned (after expansion postprocessing). -/
structure DecoEvent where
  macroname : String
  arg : Trees
  result : VRes
deriving Repr

/-- The outcome of the decorator loop of MacroExpander._visit_Decorated:
the final tree, the macros_executed list, and the recorded invocations. -/
structure DecoOut where
  res : VRes
  executed : List Ast
  events : List DecoEvent
deriving Repr

/-- The coverage dummy statement inserted by _add_coverage_dummy_node:
Done(Expr(Constant(None))) carrying the target's location. -/
def coverageDummyNode (l : Loc) : Ast :=
  .done (.node "Expr" [.constant none (some l)] (some l))

/-- _add_coverage_dummy_node(tree, target): when `target` carries location
info, coerce `tree` to a list and prepend a Done-marked dummy statement;
otherwise return `tree` unchanged. -/
def addCoverageDummyNode (tree : VRes) (target : Ast) : VRes :=
  match target.loc with
  | none => tree
  | some l =>
    match tree with
    | .deleted => .many [coverageDummyNode l]
    | .one t => .many [coverageDummyNode l, t]
    | .many ts => .many (coverageDummyNode l :: ts)

mutual

/-- BaseMacroExpander.visit (src/mcpy/visitors.py): short-circuit when there
are no bindings; Done-marked subtrees are not revisited (modelled from the
spec: the Done marker tags a subtree as "already fully expanded, do not
revisit"); otherwise dispatch on the node type.  `fuel` bounds the recursion
through macro output, which the code leaves unbounded. -/
def visit (B : Bindings) (rec : Bool) (fuel : Nat) (t : Ast) : Except EErr VRes :=
  if B.isEmpty then .ok (.one t) else
  match t with
  | .done u => .ok (.one (.done u))
  | u => visit1 B rec fuel u
termination_by (fuel, 0, sizeOf t, 2)

/-- The per-node-type dispatch of MacroExpander (src/mcpy/expander.py):
visit_Subscript, visit_With, visit_ClassDef/visit_FunctionDef and
visit_Name, with NodeTransformer.generic_visit structural descent when no
invocation shape matches. -/
def visit1 (B : Bindings) (rec : Bool) (fuel : Nat) (t : Ast) : Except EErr VRes :=
  match t with
  | .name i l =>
    match B.lookup i with
    | some info =>
      if info.nameMacroEligible then
        match fuel with
        | 0 => .error .fuelExhausted
        | fuel' + 1 => do
          let r ← expandCore B false fuel' info "name" (.one (.name i l)) (.name i l)
          match r with
          | .deleted => .ok .deleted
          | .one u =>
            if rec then
              if isUnmodifiedName i u then .ok (.one (.done u))
              else visit B rec fuel' u
            else .ok (.one u)
          | .many us =>
            if rec then .error .malformed else .ok (.many us)
      else .ok (.one (.name i l))
    | none => .ok (.one (.name i l))
  | .subscript (.name i vl) s l =>
    match fuel, B.lookup i with
    | fuel' + 1, some info =>
        expandCore B rec fuel' info "expr" (.one s) (.subscript (.name i vl) s l)
    | 0, some _ => .error .fuelExhausted
    | f, none => do
        let v' ← visitSingle B rec f (.name i vl)
        let s' ← visitSingle B rec f s
        .ok (.one (.subscript v' s' l))
  | .subscript v s l => do
      let v' ← visitSingle B rec fuel v
      let s' ← visitSingle B rec fuel s
      .ok (.one (.subscript v' s' l))
  | .withStmt (.name i cl) body l =>
    match fuel, B.lookup i with
    | fuel' + 1, some info => do
        let r ← expandCore B rec fuel' info "block" (.many body) (.withStmt (.name i cl) body l)
        .ok (addCoverageDummyNode r (.withStmt (.name i cl) body l))
    | 0, some _ => .error .fuelExhausted
    | f, none => do
        let c' ← visitSingle B rec f (.name i cl)
        let b' ← visitStmts B rec f body
        .ok (.one (.withStmt c' b' l))
  | .withStmt c body l => do
      let c' ← visitSingle B rec fuel c
      let b' ← visitStmts B rec fuel body
      .ok (.one (.withStmt c' b' l))
  | .functionDef n ds b l =>
    if (detectDecoratorMacros B ds).1.isEmpty then do
      let ds' ← visitStmts B rec fuel ds
      let b' ← visitStmts B rec fuel b
      .ok (.one (.functionDef n ds' b' l))
    else
      match fuel with
      | 0 => .error .fuelExhausted
      | fuel' + 1 => do
        let out ← decoLoop B rec fuel'
            (.functionDef n (detectDecoratorMacros B ds).2 b l)
            (detectDecoratorMacros B ds).1.reverse
        .ok (out.executed.foldl addCoverageDummyNode out.res)
  | .classDef n ds b l =>
    if (detectDecoratorMacros B ds).1.isEmpty then do
      let ds' ← visitStmts B rec fuel ds
      let b' ← visitStmts B rec fuel b
      .ok (.one (.classDef n ds' b' l))
    else
      match fuel with
      | 0 => .error .fuelExhausted
      | fuel' + 1 => do
        let out ← decoLoop B rec fuel'
            (.classDef n (detectDecoratorMacros B ds).2 b l)
            (detectDecoratorMacros B ds).1.reverse
        .ok (out.executed.foldl addCoverageDummyNode out.res)
  | .constant v l => .ok (.one (.constant v l))
  | .done u => .ok (.one (.done u))
  | .node k cs l => do
      let cs' ← visitStmts B rec fuel cs
      .ok (.one (.node k cs' l))
termination_by (fuel, 0, sizeOf t, 1)

/-- Structural descent into a single-node field: the child's visit result
must be a single node (Python would delete the field or store a list,
producing a tree the host compiler rejects). -/
def visitSingle (B : Bindings) (rec : Bool) (fuel : Nat) (t : Ast) : Except EErr Ast := do
  let r ← visit B rec fuel t
  match r with
  | .one u => .ok u
  | _ => .error .malformed
termination_by (fuel, 0, sizeOf t, 3)

/-- Structural descent into a statement list, with NodeTransformer's list
splicing: None results are dropped, list results are spliced in. -/
def visitStmts (B : Bindings) (rec : Bool) (fuel : Nat) : List Ast → Except EErr (List Ast)
  | [] => .ok []
  | t :: ts => do
    let r ← visit B rec fuel t
    let rs ← visitStmts B rec fuel ts
    match r with
    | .deleted => .ok rs
    | .one u => .ok (u :: rs)
    | .many us => .ok (us ++ rs)
termination_by ts => (fuel, 0, sizeOf ts, 3)

/-- The loop of MacroExpander._visit_Decorated over reversed(macros):
invoke each macro decorator, innermost first, every time on the same
`d'` (the definition node with its macro decorators stripped), keep the
last result, and stop as soon as a step returns None.  Also records the
macros_executed list and, for verification, the invocation events. -/
def decoLoop (B : Bindings) (rec : Bool) (fuel : Nat) (d' : Ast) :
    List Ast → Except EErr DecoOut
  | [] => .ok ⟨.deleted, [], []⟩
  | m :: rest =>
    match B.lookup (decoId m) with
    | none => .error .malformed
    | some info => do
      let r ← expandCore B rec fuel info "decorator" (.one d') d'
      match r with
      | .deleted => .ok ⟨.deleted, [m], [⟨decoId m, .one d', .deleted⟩]⟩
      | .one u => decoCont B rec fuel d' m (.one u) rest
      | .many us => decoCont B rec fuel d' m (.many us) rest
termination_by pending => (fuel, 3, sizeOf pending, 0)

/-- The continuation of one decorator-loop step that did not return None:
when no decorator macros remain, the step's result is the final tree;
otherwise the loop continues with the remaining macros (the step's
non-None result is discarded in favour of the later iterations' result,
exactly as the code overwrites new_tree on every iteration). -/
def decoCont (B : Bindings) (rec : Bool) (fuel : Nat) (d' m : Ast) (r : VRes) :
    List Ast → Except EErr DecoOut
  | [] => .ok ⟨r, [m], [⟨decoId m, .one d', r⟩]⟩
  | m2 :: rest2 => do
    let out ← decoLoop B rec fuel d' (m2 :: rest2)
    .ok ⟨out.res, m :: out.executed, ⟨decoId m, .one d', r⟩ :: out.events⟩
termination_by ts => (fuel, 3, sizeOf ts, 1)

/-- BaseMacroExpander._expand (src/mcpy/visitors.py): look up the macro,
apply it to the argument with the syntax-kind tag, and postprocess the
expansion against the invocation node. -/
def expandCore (B : Bindings) (rec : Bool) (fuel : Nat) (info : MacroInfo)
    (synKind : String) (arg : Trees) (target : Ast) : Except EErr VRes :=
  visitExpansion B rec fuel (info.fn synKind arg) target
termination_by (fuel, 2, 0, 0)

/-- BaseMacroExpander._visit_expansion (src/mcpy/visitors.py): on a non-None
expansion, copy the invocation node's location onto each returned node,
fill in missing locations, and (in recursive mode) recurse into the
once-expanded output. -/
def visitExpansion (B : Bindings) (rec : Bool) (fuel : Nat) (expansion : VRes)
    (target : Ast) : Except EErr VRes :=
  match expansion with
  | .deleted => .ok .deleted
  | .one t =>
    let t' := fixMissingLocations defaultLoc (copyLocation t target)
    if rec then visit B rec fuel t' else .ok (.one t')
  | .many ts =>
    let ts' := ts.map (fun t => fixMissingLocations defaultLoc (copyLocation t target))
    if rec then do
      let rs ← visitStmts B rec fuel ts'
      .ok (.many rs)
    else .ok (.many ts')
termination_by (fuel, 1, 0, 0)

end

mutual

/-- Modelled from the spec: the Done marker is an expander-internal wrapper
("a wrapper tagging a subtree as already fully expanded"), and the final
tree is handed to the host compiler, which accepts only ordinary nodes; the
missing `global_postprocess` of src/mcpy/expander.py therefore unwraps every
Done marker after top-level expansion. -/
def stripDone : Ast → Ast
  | .name i l => .name i l
  | .subscript v s l => .subscript (stripDone v) (stripDone s) l
  | .withStmt c b l => .withStmt (stripDone c) (stripDoneList b) l
  | .functionDef n d b l => .functionDef n (stripDoneList d) (stripDoneList b) l
  | .classDef n d b l => .classDef n (stripDoneList d) (stripDoneList b) l
  | .constant v l => .constant v l
  | .done t => stripDone t
  | .node k c l => .node k (stripDoneList c) l

/-- `stripDone` over a list of children. -/
def stripDoneList : List Ast → List Ast
  | [] => []
  | t :: ts => stripDone t :: stripDoneList ts

end

/-- `global_postprocess` lifted to a visit result. -/
def globalPostprocess : VRes → VRes
  | .deleted => .deleted
  | .one t => .one (stripDone t)
  | .many ts => .many (stripDoneList ts)

/-- expand_macros (src/mcpy/expander.py): run the macro expander over the
tree, then perform top-level postprocessing. -/
def expandMacros (B : Bindings) (fuel : Nat) (tree : Ast) : Except EErr VRes := do
  let r ← visit B true fuel tree
  .ok (globalPostprocess r)

mutual

/-- The tree contains an invocation, in one of the four syntactic shapes,
of a macro bound in `B`, at any position the expander's traversal reaches:

* expr: a Subscript whose base is a bound bare Name;
* block: a With whose context expression is a bound bare Name;
* decorator: a definition one of whose decorators is a bound bare Name;
* name: a bound bare Name whose macro is declared name-macro-eligible.

Subtrees under a Done marker are not revisited by the expander and so are
not searched. -/
def hasInvocation (B : Bindings) : Ast → Bool
  | .name i _ =>
    (match B.lookup i with
     | some info => info.nameMacroEligible
     | none => false)
  | .subscript (.name i _) s _ => ismacroname B i || hasInvocation B s
  | .subscript v s _ => hasInvocation B v || hasInvocation B s
  | .withStmt (.name i _) b _ => ismacroname B i || hasInvocationList B b
  | .withStmt c b _ => hasInvocation B c || hasInvocationList B b
  | .functionDef _ ds b _ =>
    !(detectDecoratorMacros B ds).1.isEmpty || hasInvocationList B ds || hasInvocationList B b
  | .classDef _ ds b _ =>
    !(detectDecoratorMacros B ds).1.isEmpty || hasInvocationList B ds || hasInvocationList B b
  | .constant _ _ => false
  | .done _ => false
  | .node _ cs _ => hasInvocationList B cs

/-- `hasInvocation` over a list of children. -/
def hasInvocationList (B : Bindings) : List Ast → Bool
  | [] => false
  | t :: ts => hasInvocation B t || hasInvocationList B ts

end

/-- A run-time attribute value of a macro-definition module, an opaque atom. -/
abbrev PVal := String

/-- A macro-definition module: attribute name to value (Python getattr). -/
abbrev PMod := List (String × PVal)

/-- The importable-module environment (importlib.import_module). -/
abbrev PEnv := List (String × PMod)

/-- A top-level module statement as macro discovery sees it: a from-import
(with optional module, relative level, and a name/asname list), a plain
import, or any other statement. -/
inductive PStmt where
  | importFrom (module : Option String) (level : Nat) (names : List (String × Option String)) (loc : Option Loc)
  | importStmt (names : List (String × Option String)) (loc : Option Loc)
  | other (tag : String) (loc : Option Loc)
deriving DecidableEq, Repr

/-- The location attributes of a module statement. -/
def PStmt.loc : PStmt → Option Loc
  | .importFrom _ _ _ l => l
  | .importStmt _ l => l
  | .other _ l => l

/-- _is_macro_import (src/mcpy/expander.py): a from-import whose first
imported name is the reserved token macros, with no as-alias. -/
def isMacroImport : PStmt → Bool
  | .importFrom _ _ ((n, a) :: _) _ => n == "macros" && a.isNone
  | _ => false

/-- ismacroimport with magicname dialects: a from-import whose first
imported name is the reserved token dialects, with no as-alias. -/
def isDialectImport : PStmt → Bool
  | .importFrom _ _ ((n, a) :: _) _ => n == "dialects" && a.isNone
  | _ => false

/-- Split a character list at each dot (str.split called with a dot). -/
def splitDotsAux (cur : List Char) : List Char → List (List Char)
  | [] => [cur.reverse]
  | c :: rest =>
    if c = '.' then cur.reverse :: splitDotsAux [] rest
    else splitDotsAux (c :: cur) rest

/-- Split a dotted name into its components. -/
def splitDots (s : String) : List String :=
  (splitDotsAux [] s.toList).map (fun l => String.mk l)

/-- importlib.util.resolve_name on a name with `level` leading dots relative
to `package`: drop level-1 trailing components of the package and append
the module name; none when the level climbs past the package root. -/
def resolveName (level : Nat) (module : String) (package : String) : Option String :=
  if level = 0 then some module
  else
    let parts := splitDots package
    if parts.length < level then none
    else some (String.intercalate "." (parts.take (parts.length - (level - 1))) ++ "." ++ module)

/-- The outcome of _resolve_package (src/mcpy/expander.py) for the file
being expanded, as _get_macros consumes it: the containing package's
absolute name, or one of _resolve_package's two failure modes — the file
is at a root level of sys.path and so inside no package (the code's
ValueError), or no sys.path root contains the file at all (the code's
ImportError). -/
inductive PkgRes where
  | pkg (name : String)
  | noPackage
  | undetermined
deriving DecidableEq, Repr

/-- The errors of macro discovery (src/mcpy/expander.py): SyntaxError for a
missing module name or a relative import outside any package, ImportError
when the containing package cannot be determined, the module cannot be
resolved, or it cannot be imported, AttributeError when a named
macro is missing from the resolved module (Python getattr). -/
inductive PErr where
  | syntaxError (msg : String)
  | importError (msg : String)
  | attributeError (module : String) (attr : String)
deriving DecidableEq, Repr

/-- The binding pairs built by _get_macros from the names after the initial
macros token: each listed name (or its as-alias when given) mapped to the
same-named attribute of the resolved module. -/
def bindPairs (fullname : String) (module : PMod) :
    List (String × Option String) → Except PErr (List (String × PVal))
  | [] => .ok []
  | (n, a) :: rest =>
    match module.lookup n with
    | none => .error (.attributeError fullname n)
    | some v => do
      let bs ← bindPairs fullname module rest
      .ok ((a.getD n, v) :: bs)

/-- _get_macros (src/mcpy/expander.py): from a macro-import statement,
resolve the module name (relatively, against the importing file's package
`pkg`, when the import has a nonzero level — a failed package resolution
is re-raised as a SyntaxError when the file is outside any package, and
as an ImportError when the containing package cannot be determined), then
load the resolved module from `env`, and return the resolved absolute
name with the macro bindings. -/
def getMacrosOf (env : PEnv) (pkg : PkgRes) : PStmt → Except PErr (String × List (String × PVal))
  | .importFrom mo level names _ => do
    let m ← (match mo with
      | none => Except.error (PErr.syntaxError "missing module name in macro-import")
      | some m => Except.ok m)
    let fullname ← (if level == 0 then Except.ok m
      else match pkg with
        | .noPackage => Except.error (PErr.syntaxError "relative import outside any package")
        | .undetermined => Except.error
            (PErr.importError "could not determine containing package to resolve relative import")
        | .pkg p =>
          match resolveName level m p with
          | some f => Except.ok f
          | none => Except.error (PErr.importError m))
    match env.lookup fullname with
    | none => Except.error (PErr.importError fullname)
    | some module => do
      let bs ← bindPairs fullname module names.tail
      .ok (fullname, bs)
  | _ => .error (.syntaxError "not a macro-import")

/-- find_macros (src/mcpy/expander.py): walk the module body; on each
macro-import statement, collect its bindings (later statements update
earlier bindings, as dict.update does) and rewrite the statement in place
into a plain absolute import of the resolved module, carrying the original
statement's location. -/
def findMacros (env : PEnv) (pkg : PkgRes) :
    List PStmt → Except PErr (List (String × PVal) × List PStmt)
  | [] => .ok ([], [])
  | s :: rest =>
    if isMacroImport s then do
      let (fullname, bs) ← getMacrosOf env pkg s
      let (brest, rest') ← findMacros env pkg rest
      .ok (bs ++ brest, PStmt.importStmt [(fullname, none)] s.loc :: rest')
    else do
      let (brest, rest') ← findMacros env pkg rest
      .ok (brest, s :: rest')

/-- Lookup in a binding list with Python-dict update semantics: the latest
binding of a key wins. -/
def dictLookup (l : List (String × PVal)) (k : String) : Option PVal :=
  l.reverse.lookup k

/-- A line of not-yet-parseable module source text, as the dialect
expander's textual scan classifies it: either a whole-line, column-zero
dialect-import (from module import dialects, names) or any other line.
Equality of `DLine` is equality of the exact line text. -/
inductive DLine where
  | dimport (module : String) (names : List String)
  | srcline (s : String)
deriving DecidableEq, Repr

/-- Module source text: its list of lines. -/
abbrev DText := List DLine

/-- An attribute of a dialect-definition module: either a dialect
(carrying its whole-text source transformer and whole-tree AST
transformer, both defaulting to the identity in the Dialect base class) or
some other object. -/
inductive DValue where
  | dialect (transformSource : DText → DText) (transformAst : List PStmt → List PStmt)
  | notDialect (descr : String)

/-- The dialect-definition module environment: module name to attributes. -/
abbrev DEnv := List (String × List (String × DValue))

/-- Dialect-expansion failures: the model's fuel stand-in for
non-termination, ImportError (unresolvable module), the missing-attribute
error of binding resolution, and the TypeError raised by
DialectExpander.transform_source / transform_ast when a named attribute is
not a Dialect (carrying the offending dotted name that the code puts in
the message). -/
inductive DErr where
  | fuelExhausted
  | importError (dotted : String)
  | bindingError (dotted : String)
  | typeError (dotted : String)
deriving DecidableEq, Repr

/-- DErr classification: is the error ImportError-class? -/
def DErr.isImportError : DErr → Bool
  | .importError _ => true
  | _ => false

/-- The scanning part of DialectExpander.find_dialectimport_source: the
first dialect-import line of the text, in text order, whose exact line
text is not in the seen-set. -/
def findUnseenDialectimport (seen : List DLine) : DText → Option (String × List String)
  | [] => none
  | .dimport m ns :: rest =>
      if seen.contains (DLine.dimport m ns) then findUnseenDialectimport seen rest
      else some (m, ns)
  | .srcline _ :: rest => findUnseenDialectimport seen rest

/-- Modelled from the spec: the binding-resolution helper get_macros used by
src/mcpy/dialects.py lives in the absent module mcpy.exutilities; per the
spec it resolves the named module and binds each subsequently named import
to the corresponding attribute of the resolved module, failing with an
ImportError-class error when the module cannot be resolved and a
binding error when an attribute is missing.  Dialect-imports here are
absolute (the textual pattern names a dotted module). -/
def dialectPairs (module : String) (attrs : List (String × DValue)) :
    List String → Except DErr (List (String × DValue))
  | [] => .ok []
  | n :: rest =>
    match attrs.lookup n with
    | none => .error (.bindingError (module ++ "." ++ n))
    | some v => do
      let bs ← dialectPairs module attrs rest
      .ok ((n, v) :: bs)

/-- Modelled from the spec, with `dialectPairs`: resolve a dialect-import's
module and collect the named attributes; ImportError-class when the module
is not importable. -/
def getDialects (env : DEnv) (module : String) (names : List String) :
    Except DErr (String × List (String × DValue)) :=
  match env.lookup module with
  | none => .error (.importError module)
  | some attrs => do
    let bs ← dialectPairs module attrs names
    .ok (module, bs)

/-- The per-line body of DialectExpander.transform_source: for each named
binding in order, error with a TypeError carrying the dotted name when it
is not a Dialect, otherwise instantiate it and apply its source
transformer to the entire text. -/
def applySourceDialects (absname : String) :
    List (String × DValue) → DText → Except DErr DText
  | [], text => .ok text
  | (n, v) :: rest, text =>
    match v with
    | .dialect srcT _ => applySourceDialects absname rest (srcT text)
    | .notDialect _ => .error (.typeError (absname ++ "." ++ n))

/-- One recorded source-transform step: the dialect-import line processed
and the names of the dialects whose source transformers were applied. -/
structure SrcEvent where
  line : DLine
  applied : List String
deriving DecidableEq, Repr

/-- DialectExpander.transform_source (src/mcpy/dialects.py): repeatedly
rescan the text from the beginning for the first not-yet-seen
dialect-import line; resolve it, apply the source transformers of its
dialects to the entire text, and loop until no unseen dialect-import line
remains.  Returns the final text, the final seen-set, and the recorded
steps in processing order. -/
def transformSourceD (env : DEnv) :
    Nat → List DLine → DText → Except DErr (DText × List DLine × List SrcEvent)
  | 0, _, _ => .error .fuelExhausted
  | fuel + 1, seen, text =>
    match findUnseenDialectimport seen text with
    | none => .ok (text, seen, [])
    | some p => do
      let q ← getDialects env p.1 p.2
      if q.2.isEmpty then transformSourceD env fuel (DLine.dimport p.1 p.2 :: seen) text
      else do
        let text2 ← applySourceDialects q.1 q.2 text
        let r ← transformSourceD env fuel (DLine.dimport p.1 p.2 :: seen) text2
        .ok (r.1, r.2.1, ⟨DLine.dimport p.1 p.2, q.2.map Prod.fst⟩ :: r.2.2)

/-- DialectExpander.find_dialectimport_ast: find the first dialect-import
statement of the top-level body, resolve it, and rewrite it in place into
a plain absolute import of the dialect-definition module; none when no
dialect-import statement remains. -/
def findDialectimportAst (env : DEnv) :
    List PStmt → Except DErr (Option (String × List (String × DValue) × List PStmt))
  | [] => .ok none
  | s :: rest =>
    if isDialectImport s then
      match s with
      | .importFrom mo _ names loc => do
        let q ← getDialects env (mo.getD "") (names.tail.map Prod.fst)
        .ok (some (q.1, q.2, PStmt.importStmt [(q.1, none)] loc :: rest))
      | _ => .ok none
    else do
      let r ← findDialectimportAst env rest
      match r with
      | none => .ok none
      | some p => .ok (some (p.1, p.2.1, s :: p.2.2))

/-- The per-statement body of DialectExpander.transform_ast: for each named
binding in order, error with a TypeError carrying the dotted name when it
is not a Dialect, otherwise instantiate it and apply its AST transformer
to the whole tree. -/
def applyAstDialects (absname : String) :
    List (String × DValue) → List PStmt → Except DErr (List PStmt)
  | [], tree => .ok tree
  | (n, v) :: rest, tree =>
    match v with
    | .dialect _ astT => applyAstDialects absname rest (astT tree)
    | .notDialect _ => .error (.typeError (absname ++ "." ++ n))

/-- DialectExpander.transform_ast (src/mcpy/dialects.py): repeatedly take
the first remaining dialect-import statement of the top-level body,
rewrite it away, apply its dialects' AST transformers to the whole tree,
and loop until none remains. -/
def transformAstD (env : DEnv) : Nat → List PStmt → Except DErr (List PStmt)
  | 0, _ => .error .fuelExhausted
  | fuel + 1, tree => do
    let r ← findDialectimportAst env tree
    match r with
    | none => .ok tree
    | some p =>
      if p.2.1.isEmpty then transformAstD env fuel p.2.2
      else do
        let tree2 ← applyAstDialects p.1 p.2.1 p.2.2
        transformAstD env fuel tree2

/-- _decode_source_content: decode source bytes to text (the byte/text
distinction is not modelled, so decoding is the identity on line lists). -/
def decodeSource (data : DText) : DText := data

/-- DialectExpander.expand (src/mcpy/dialects.py), the top-level entry
point, faithfully to the code: decode `data`, run the source-transform
stage on the decoded text, but then parse `data` — the original input,
not the source-transformed text — and run the AST-transform stage on the
tree so parsed.  `parse` stands for the host's ast.parse. -/
def dexpand (parse : DText → List PStmt) (env : DEnv) (fuel : Nat) (data : DText) :
    Except DErr (List PStmt) := do
  let text := decodeSource data
  let _ ← transformSourceD env fuel [] text
  let tree := parse data
  transformAstD env fuel tree

/-- Modelled from the spec, for comparison with `dexpand`: the data flow the
spec describes is raw source text, then dialect source transforms, then
parse ("after no further dialect-import lines remain in the text, the text
is parsed once into a tree"), then dialect AST transforms on that tree. -/
def dexpandSpec (parse : DText → List PStmt) (env : DEnv) (fuel : Nat) (data : DText) :
    Except DErr (List PStmt) := do
  let text := decodeSource data
  let (text', _, _) ← transformSourceD env fuel [] text
  let tree := parse text'
  transformAstD env fuel tree

/-- A node of the macro-dependency graph that path_xstats
(src/mcpyrate/importer.py) walks: a `.py` source file with its own
modification time and the dependency nodes of the resolvable modules named
in its macro-imports and dialect-imports (self-macro-imports, which have no
spec, are simply absent), or a non-`.py` origin, for which path_xstats
delegates to the standard path_stats and reports the file's own
modification time.  Modification times are modelled as abstract naturals
(the code's float seconds are a monotone image of st_mtime_ns). -/
inductive DepNode where
  | py (mtime : Nat) (deps : List DepNode)
  | nonPy (mtime : Nat)
deriving Repr

/-- Python max over a list of modification times (0 on the empty list,
which never arises: the file's own mtime is always appended). -/
def maxMtime (l : List Nat) : Nat := l.foldr max 0

mutual

/-- path_xstats (src/mcpyrate/importer.py), as a function of the
macro-dependency graph: for a `.py` file, recursively compute the
dependencies' mtimes, append the file's own mtime, and take the maximum;
for any other origin, the standard stat mtime. -/
def pathXstats : DepNode → Nat
  | .nonPy m => m
  | .py m deps => maxMtime (depMtimes deps ++ [m])

/-- The mtimes list that path_xstats accumulates over the macro-imports
and dialect-imports of a file. -/
def depMtimes : List DepNode → List Nat
  | [] => []
  | d :: ds => pathXstats d :: depMtimes ds

end

mutual

/-- All modification times in the transitive macro-dependency closure of a
file: its own and, recursively, those of every reachable dependency. -/
def closureMtimes : DepNode → List Nat
  | .nonPy m => [m]
  | .py m deps => m :: closureMtimesList deps

/-- `closureMtimes` over a dependency list. -/
def closureMtimesList : List DepNode → List Nat
  | [] => []
  | d :: ds => closureMtimes d ++ closureMtimesList ds

end

/-- A statement tree for the splicing utilities (src/mcpy/splicing.py),
with an explicit object identity `oid` on every node so that Python's
copy.deepcopy (fresh objects everywhere) is observable: an expression
statement, a bare identifier, or any other statement with a nested
statement list. -/
inductive STree where
  | sExpr (oid : Nat) (value : STree)
  | sName (oid : Nat) (id : String)
  | sBlock (oid : Nat) (kind : String) (body : List STree)
deriving Repr

/-- The ispastehere predicate of splice_statements: a bare identifier named
`tag` in a statement position, that is Expr(value=Name(id=tag)). -/
def ispastehere (tag : String) : STree → Bool
  | .sExpr _ (.sName _ i) => i == tag
  | _ => false

mutual

/-- copy.deepcopy with observable identities: rebuild the tree with fresh
object ids drawn from the counter `c`, returning the new counter. -/
def freshCopy (c : Nat) : STree → STree × Nat
  | .sExpr _ v =>
    let r := freshCopy (c + 1) v
    (.sExpr c r.1, r.2)
  | .sName _ i => (.sName c i, c + 1)
  | .sBlock _ k b =>
    let r := freshCopyList (c + 1) b
    (.sBlock c k r.1, r.2)

/-- `freshCopy` over a statement list. -/
def freshCopyList (c : Nat) : List STree → List STree × Nat
  | [] => ([], c)
  | t :: ts =>
    let r := freshCopy c t
    let rs := freshCopyList r.2 ts
    (r.1 :: rs.1, rs.2)

end

mutual

/-- All object ids of a statement tree. -/
def oids : STree → List Nat
  | .sExpr o v => o :: oids v
  | .sName o _ => [o]
  | .sBlock o _ b => o :: oidsList b

/-- `oids` over a statement list. -/
def oidsList : List STree → List Nat
  | [] => []
  | t :: ts => oids t ++ oidsList ts

end

mutual

/-- Forget object identities, leaving the pure statement structure. -/
def eraseOids : STree → STree
  | .sExpr _ v => .sExpr 0 (eraseOids v)
  | .sName _ i => .sName 0 i
  | .sBlock _ k b => .sBlock 0 k (eraseOidsList b)

/-- `eraseOids` over a statement list. -/
def eraseOidsList : List STree → List STree
  | [] => []
  | t :: ts => eraseOids t :: eraseOidsList ts

end

/-- The walker state of the StatementSplicer: the first-occurrence flag,
the deepcopy counter (Python's supply of fresh object identities), and,
recorded for verification, the list of statement lists spliced in at each
paste-here occurrence, in scan order. -/
structure SpliceSt where
  first : Bool
  counter : Nat
  events : List (List STree)

mutual

/-- Modelled from the spec, specialized to the StatementSplicer of
splice_statements (src/mcpy/splicing.py): the absent mcpy.walker.Walker is
the spec's "generic recursive tree rewrite helper", a depth-first,
left-to-right statement-list transformer whose callback may replace one
statement with a list (spliced in place, and not re-traversed).  The
splicer's transform replaces the first paste-here indicator, in scan
order, with `body` itself, and every later one with a deep copy of
`body`; all other statements are descended into. -/
def spliceWalk (tag : String) (body : List STree) (st : SpliceSt) :
    List STree → List STree × SpliceSt
  | [] => ([], st)
  | t :: ts =>
    if ispastehere tag t then
      if st.first then
        let r := spliceWalk tag body ⟨false, st.counter, st.events ++ [body]⟩ ts
        (body ++ r.1, r.2)
      else
        let c := freshCopyList st.counter body
        let r := spliceWalk tag body ⟨st.first, c.2, st.events ++ [c.1]⟩ ts
        (c.1 ++ r.1, r.2)
    else
      let r1 := spliceSub tag body st t
      let r := spliceWalk tag body r1.2 ts
      (r1.1 :: r.1, r.2)

/-- Structural descent of the splicing walker into one non-paste-here
statement: recurse into a nested statement list, leave leaves alone. -/
def spliceSub (tag : String) (body : List STree) (st : SpliceSt) :
    STree → STree × SpliceSt
  | .sBlock o k b =>
    let r := spliceWalk tag body st b
    (.sBlock o k r.1, r.2)
  | t => (t, st)

end

/-- splice_statements (src/mcpy/splicing.py) on statement-list inputs:
reject an empty `body`, return `body` for an empty template, otherwise run
the StatementSplicer over the template.  `counter` supplies the fresh
object identities that Python's allocator would (callers pass a value
above every object id in use). -/
def spliceStatements (body : List STree) (template : List STree) (tag : String)
    (counter : Nat) : Except String (List STree) :=
  if body.isEmpty then .error "expected at least one statement in body"
  else if template.isEmpty then .ok body
  else .ok (spliceWalk tag body ⟨true, counter, []⟩ template).1

/-- Whether the node is a Done marker. -/
def Ast.isDoneMarker : Ast → Bool
  | .done _ => true
  | _ => false

/-- A toy stand-in for the host's ast.parse on line-structured text, used
to evaluate the dialect expander at concrete inputs: a dialect-import line
parses to the corresponding from-import statement, any other line to an
opaque statement. -/
def parseLines (text : DText) : List PStmt :=
  text.map (fun l => match l with
    | .dimport m ns => PStmt.importFrom (some m) 0
        (("dialects", none) :: ns.map (fun n => (n, none))) (some ⟨1, 0⟩)
    | .srcline s => PStmt.other s none)

/-- A concrete dialect source transformer that rewrites the line x = 1 to
x = 2 and leaves every other line alone. -/
def exSrcTransform (text : DText) : DText :=
  text.map (fun l => if l = DLine.srcline "x = 1" then DLine.srcline "x = 2" else l)

/-- A concrete dialect-definition environment: module modD exposes dialect
D whose source transformer is `exSrcTransform` and whose AST transformer
is the identity. -/
def exDEnv : DEnv := [("modD", [("D", .dialect exSrcTransform id)])]

/-- Concrete module source: a dialect-import of modD.D followed by x = 1. -/
def exData : DText := [.dimport "modD" ["D"], .srcline "x = 1"]

/-- A concrete binding table for exercising name-macro gating: a is bound
but not name-macro-eligible, b is an eligible identifier macro returning
the same bare identifier, c is an eligible identifier macro returning a
constant. -/
def gatingBindings : Bindings :=
  [("a", ⟨fun _ _ => .deleted, false⟩),
   ("b", ⟨fun _ _ => .one (.name "b" none), true⟩),
   ("c", ⟨fun _ _ => .one (.constant (some 5) none), true⟩)]

/-- A decorator macro that records its input: it returns a fresh node
wrapping the argument it was invoked on (it does not mutate anything). -/
def chainA : MacroInfo :=
  ⟨fun _ arg => match arg with
    | .one t => .one (.node "Aarg" [t] none)
    | .many _ => .deleted, false⟩

/-- A decorator macro that replaces the definition with the constant 1. -/
def chainB : MacroInfo :=
  ⟨fun _ _ => .one (.constant (some 1) none), false⟩

/-- Binding table with decorator macros A (outer) and B (inner). -/
def chainBindings : Bindings := [("A", chainA), ("B", chainB)]

/-- A function definition node (macro decorators already stripped). -/
def chainDef : Ast :=
  .functionDef "f" [] [.constant (some 0) (some ⟨3, 4⟩)] (some ⟨3, 0⟩)

/-- The decorator list @A @B (A outermost, B closest to the definition). -/
def chainDecs : List Ast := [.name "A" (some ⟨1, 0⟩), .name "B" (some ⟨2, 0⟩)]

/-- The decorator-loop outcome for `chainDecs` over `chainBindings`. -/
def chainOut : DecoOut :=
  ⟨.one (.node "Aarg" [chainDef] (some ⟨3, 0⟩)),
   [.name "B" (some ⟨2, 0⟩), .name "A" (some ⟨1, 0⟩)],
   [⟨"B", .one chainDef, .one (.constant (some 1) (some ⟨3, 0⟩))⟩,
    ⟨"A", .one chainDef, .one (.node "Aarg" [chainDef] (some ⟨3, 0⟩))⟩]⟩

/-- The importable-module environment for the C5 witness: the relative
macro-import resolves to app.sub.mymacros, which exposes foo; pkg.macros
exposes the attribute bar. -/
def exPEnv : PEnv :=
  [("app.sub.mymacros", [("foo", "FOO")]),
   ("pkg.macros", [("bar", "BAR")])]

/-- The containing package of the module expanded in the C5 witness. -/
def exPkg : PkgRes := .pkg "app.sub"

/-- A module body for the C5 witness: a relative macro-import
(from .mymacros import macros, foo), an absolute macro-import with an
alias (from pkg.macros import macros, bar as b), and an ordinary
statement. -/
def exBody : List PStmt :=
  [.importFrom (some "mymacros") 1 [("macros", none), ("foo", none)] (some ⟨1, 0⟩),
   .importFrom (some "pkg.macros") 0 [("macros", none), ("bar", some "b")] (some ⟨2, 0⟩),
   .other "x = 1" (some ⟨3, 0⟩)]

/-- A dialect-definition environment for exercising source rescanning:
modA.A inserts an unrelated line at the end of the text, modB.B leaves
the text unchanged. -/
def scanEnv : DEnv :=
  [("modA", [("A", .dialect (fun text => text ++ [.srcline "inserted"]) id)]),
   ("modB", [("B", .dialect id id)])]

/-- Source text with two distinct dialect-import lines. -/
def scanText : DText := [.dimport "modA" ["A"], .dimport "modB" ["B"], .srcline "x"]

/-- Whether a dialect-module attribute is a Dialect (the isinstance check
of DialectExpander.transform_source / transform_ast). -/
def DValue.isDialect : DValue → Bool
  | .dialect _ _ => true
  | .notDialect _ => false

/-- A dialect-definition environment whose module modX exposes an
attribute d that is not a Dialect. -/
def badEnv : DEnv := [("modX", [("d", .notDialect "a string")])]

mutual

/-- Number of paste-here indicators a statement contributes in the
splicing walker`s scan order (the walker does not descend into the
expression under a bare-identifier statement, only into statement
lists). -/
def pasteCount (tag : String) : STree → Nat
  | .sExpr o v => if ispastehere tag (.sExpr o v) then 1 else 0
  | .sName _ _ => 0
  | .sBlock _ _ b => pasteCountList tag b

/-- `pasteCount` summed over a statement list. -/
def pasteCountList (tag : String) : List STree → Nat
  | [] => 0
  | t :: ts => pasteCount tag t + pasteCountList tag ts

end

/-- A chain of freshly deep-copied splice events: each event is a
structural copy of `body` whose object ids live in its own interval of
the counter range, the intervals stacked left to right between `lo` and
`hi`. -/
def FreshChain (body : List STree) : Nat → List (List STree) → Nat → Prop
  | lo, [], hi => lo ≤ hi
  | lo, e :: es, hi =>
      eraseOidsList e = eraseOidsList body ∧
      ∃ mid, lo ≤ mid ∧ (∀ o ∈ oidsList e, lo ≤ o ∧ o < mid) ∧ FreshChain body mid es hi

/-- Lift `Ast.allLocated` to a visit result. -/
def VRes.allLocatedV : VRes → Bool
  | .deleted => true
  | .one t => t.allLocated
  | .many ts => Ast.allLocatedList ts

theorem maxMtime_cons (x : Nat) (l : List Nat) :
    maxMtime (x :: l) = max x (maxMtime l) := rfl

theorem maxMtime_append (a b : List Nat) :
    maxMtime (a ++ b) = max (maxMtime a) (maxMtime b) := by
  induction a with
  | nil => simp [maxMtime]
  | cons h t ih => simp [maxMtime] at ih ⊢; omega

mutual

theorem pathXstats_eq_closure : ∀ t : DepNode, pathXstats t = maxMtime (closureMtimes t)
  | .nonPy m => by simp [pathXstats, closureMtimes, maxMtime]
  | .py m deps => by
    have ih := depMtimes_eq_closure deps
    simp only [pathXstats, closureMtimes]
    rw [maxMtime_append, ih, maxMtime_cons]
    simp [maxMtime, Nat.max_comm]

theorem depMtimes_eq_closure : ∀ ds : List DepNode,
    maxMtime (depMtimes ds) = maxMtime (closureMtimesList ds)
  | [] => by simp [depMtimes, closureMtimesList]
  | d :: ds => by
    have ih1 := pathXstats_eq_closure d
    have ih2 := depMtimes_eq_closure ds
    simp only [depMtimes, closureMtimesList]
    rw [maxMtime_append, maxMtime_cons, ih1, ih2]

end

/-- C9: for every `.py` source file (outside the standard library), the
modification time computed by path_xstats equals the maximum of the file's
own modification time and the recursively computed modification times of
every resolvable module named in its macro-imports and dialect-imports,
that is, the maximum over the transitive macro-dependency closure. -/
theorem pathXstats_is_max_of_dependency_closure (m : Nat) (deps : List DepNode) :
    pathXstats (.py m deps) = max m (maxMtime (closureMtimesList deps)) := by
  rw [pathXstats_eq_closure]
  simp only [closureMtimes, maxMtime_cons]

mutual

theorem fixMissing_allLocated : ∀ (d : Loc) (t : Ast), (fixMissingLocations d t).allLocated = true
  | d, .name i l => by simp [fixMissingLocations, Ast.allLocated]
  | d, .subscript v s l => by
      have ih1 := fixMissing_allLocated (l.getD d) v
      have ih2 := fixMissing_allLocated (l.getD d) s
      simp [fixMissingLocations, Ast.allLocated, ih1, ih2]
  | d, .withStmt c b l => by
      have ih1 := fixMissing_allLocated (l.getD d) c
      have ih2 := fixMissingList_allLocated (l.getD d) b
      simp [fixMissingLocations, Ast.allLocated, ih1, ih2]
  | d, .functionDef n ds b l => by
      have ih1 := fixMissingList_allLocated (l.getD d) ds
      have ih2 := fixMissingList_allLocated (l.getD d) b
      simp [fixMissingLocations, Ast.allLocated, ih1, ih2]
  | d, .classDef n ds b l => by
      have ih1 := fixMissingList_allLocated (l.getD d) ds
      have ih2 := fixMissingList_allLocated (l.getD d) b
      simp [fixMissingLocations, Ast.allLocated, ih1, ih2]
  | d, .constant v l => by simp [fixMissingLocations, Ast.allLocated]
  | d, .done t => by
      have ih := fixMissing_allLocated d t
      simp [fixMissingLocations, Ast.allLocated, ih]
  | d, .node k cs l => by
      have ih := fixMissingList_allLocated (l.getD d) cs
      simp [fixMissingLocations, Ast.allLocated, ih]

theorem fixMissingList_allLocated : ∀ (d : Loc) (ts : List Ast),
    Ast.allLocatedList (fixMissingList d ts) = true
  | d, [] => by simp [fixMissingList, Ast.allLocatedList]
  | d, t :: ts => by
      have ih1 := fixMissing_allLocated d t
      have ih2 := fixMissingList_allLocated d ts
      simp [fixMissingList, Ast.allLocatedList, ih1, ih2]

end

mutual

theorem fixMissing_located_id : ∀ (d : Loc) (t : Ast), t.allLocated = true →
    fixMissingLocations d t = t
  | d, .name i l, h => by
      simp [Ast.allLocated] at h
      obtain ⟨l', rfl⟩ := Option.isSome_iff_exists.mp h
      simp [fixMissingLocations]
  | d, .subscript v s l, h => by
      simp [Ast.allLocated] at h
      obtain ⟨⟨hl, hv⟩, hs⟩ := h
      obtain ⟨l', rfl⟩ := Option.isSome_iff_exists.mp hl
      simp [fixMissingLocations, fixMissing_located_id _ v hv, fixMissing_located_id _ s hs]
  | d, .withStmt c b l, h => by
      simp [Ast.allLocated] at h
      obtain ⟨⟨hl, hc⟩, hb⟩ := h
      obtain ⟨l', rfl⟩ := Option.isSome_iff_exists.mp hl
      simp [fixMissingLocations, fixMissing_located_id _ c hc, fixMissingList_located_id _ b hb]
  | d, .functionDef n ds b l, h => by
      simp [Ast.allLocated] at h
      obtain ⟨⟨hl, hd⟩, hb⟩ := h
      obtain ⟨l', rfl⟩ := Option.isSome_iff_exists.mp hl
      simp [fixMissingLocations, fixMissingList_located_id _ ds hd, fixMissingList_located_id _ b hb]
  | d, .classDef n ds b l, h => by
      simp [Ast.allLocated] at h
      obtain ⟨⟨hl, hd⟩, hb⟩ := h
      obtain ⟨l', rfl⟩ := Option.isSome_iff_exists.mp hl
      simp [fixMissingLocations, fixMissingList_located_id _ ds hd, fixMissingList_located_id _ b hb]
  | d, .constant v l, h => by
      simp [Ast.allLocated] at h
      obtain ⟨l', rfl⟩ := Option.isSome_iff_exists.mp h
      simp [fixMissingLocations]
  | d, .done t, h => by
      simp [Ast.allLocated] at h
      simp [fixMissingLocations, fixMissing_located_id d t h]
  | d, .node k cs l, h => by
      simp [Ast.allLocated] at h
      obtain ⟨hl, hc⟩ := h
      obtain ⟨l', rfl⟩ := Option.isSome_iff_exists.mp hl
      simp [fixMissingLocations, fixMissingList_located_id _ cs hc]

theorem fixMissingList_located_id : ∀ (d : Loc) (ts : List Ast),
    Ast.allLocatedList ts = true → fixMissingList d ts = ts
  | d, [], _ => by simp [fixMissingList]
  | d, t :: ts, h => by
      simp [Ast.allLocatedList] at h
      simp [fixMissingList, fixMissing_located_id d t h.1, fixMissingList_located_id d ts h.2]

end

theorem allLocatedList_append (a b : List Ast) :
    Ast.allLocatedList (a ++ b) = (Ast.allLocatedList a && Ast.allLocatedList b) := by
  induction a with
  | nil => simp [Ast.allLocatedList]
  | cons t ts ih => simp [Ast.allLocatedList, ih, Bool.and_assoc]

theorem allLocatedList_map_fix (target : Ast) (ts : List Ast) :
    Ast.allLocatedList (ts.map (fun t => fixMissingLocations defaultLoc (copyLocation t target))) = true := by
  induction ts with
  | nil => simp [Ast.allLocatedList]
  | cons t ts ih => simp [Ast.allLocatedList, ih, fixMissing_allLocated]

theorem coverage_allLocatedV (r : VRes) (target : Ast) (h : r.allLocatedV = true) :
    (addCoverageDummyNode r target).allLocatedV = true := by
  unfold addCoverageDummyNode
  cases htl : target.loc with
  | none => simpa
  | some l =>
    cases r <;>
      simp_all [VRes.allLocatedV, coverageDummyNode, Ast.allLocated, Ast.allLocatedList]

theorem coverage_foldl_allLocatedV (ms : List Ast) (r : VRes) (h : r.allLocatedV = true) :
    (ms.foldl addCoverageDummyNode r).allLocatedV = true := by
  induction ms generalizing r with
  | nil => simpa
  | cons m ms ih => exact ih _ (coverage_allLocatedV r m h)

@[simp] theorem except_bind_ok {e a b : Type} (x : a) (f : a → Except e b) :
    (Except.ok x >>= f) = f x := rfl

@[simp] theorem except_bind_error {e a b : Type} (x : e) (f : a → Except e b) :
    ((Except.error x : Except e a) >>= f) = Except.error x := rfl

theorem genericSubscriptAux (B : Bindings) (rec : Bool) (fuel : Nat) (v s : Ast)
    (l : Option Loc) (hlo : l.isSome = true) (hs : s.allLocated = true)
    (ih7a : ∀ u, visitSingle B rec fuel v = .ok u → u.allLocated = true)
    (ih7b : ∀ u, visitSingle B rec fuel s = .ok u → u.allLocated = true)
    (r : VRes)
    (hr : (do
      let v' ← visitSingle B rec fuel v
      let s' ← visitSingle B rec fuel s
      Except.ok (VRes.one (Ast.subscript v' s' l))) = .ok r) : r.allLocatedV = true := by
  cases h1 : visitSingle B rec fuel v with
  | error e => rw [h1] at hr; simp at hr
  | ok v' =>
    cases h2 : visitSingle B rec fuel s with
    | error e => rw [h1, h2] at hr; simp at hr
    | ok s' =>
      rw [h1, h2] at hr
      simp at hr
      subst hr
      simp [VRes.allLocatedV, Ast.allLocated, hlo, ih7a v' h1, ih7b s' h2]

theorem genericWithAux (B : Bindings) (rec : Bool) (fuel : Nat) (c : Ast)
    (body : List Ast) (l : Option Loc) (hlo : l.isSome = true)
    (ih7 : ∀ u, visitSingle B rec fuel c = .ok u → u.allLocated = true)
    (ih6 : ∀ rs, visitStmts B rec fuel body = .ok rs → Ast.allLocatedList rs = true)
    (r : VRes)
    (hr : (do
      let c' ← visitSingle B rec fuel c
      let b' ← visitStmts B rec fuel body
      Except.ok (VRes.one (Ast.withStmt c' b' l))) = .ok r) : r.allLocatedV = true := by
  cases h1 : visitSingle B rec fuel c with
  | error e => rw [h1] at hr; simp at hr
  | ok c' =>
    cases h2 : visitStmts B rec fuel body with
    | error e => rw [h1, h2] at hr; simp at hr
    | ok b' =>
      rw [h1, h2] at hr
      simp at hr
      subst hr
      simp [VRes.allLocatedV, Ast.allLocated, hlo, ih7 c' h1, ih6 b' h2]

theorem genericDefAux (B : Bindings) (rec : Bool) (fuel : Nat) (ds b : List Ast)
    (mk : List Ast → List Ast → VRes)
    (hmk : ∀ x y, Ast.allLocatedList x = true → Ast.allLocatedList y = true →
      (mk x y).allLocatedV = true)
    (ih6a : ∀ rs, visitStmts B rec fuel ds = .ok rs → Ast.allLocatedList rs = true)
    (ih6b : ∀ rs, visitStmts B rec fuel b = .ok rs → Ast.allLocatedList rs = true)
    (r : VRes)
    (hr : (do
      let ds' ← visitStmts B rec fuel ds
      let b' ← visitStmts B rec fuel b
      Except.ok (mk ds' b')) = .ok r) : r.allLocatedV = true := by
  cases h1 : visitStmts B rec fuel ds with
  | error e => rw [h1] at hr; simp at hr
  | ok ds' =>
    cases h2 : visitStmts B rec fuel b with
    | error e => rw [h1, h2] at hr; simp at hr
    | ok b' =>
      rw [h1, h2] at hr
      simp at hr
      subst hr
      exact hmk ds' b' (ih6a ds' h1) (ih6b b' h2)

set_option maxHeartbeats 1600000

theorem visit_allLocatedV (B : Bindings) (rec : Bool) (fuel : Nat) (t : Ast) :
    t.allLocated = true → ∀ r, visit B rec fuel t = .ok r → r.allLocatedV = true := by
  refine visit.induct B
    (fun rec fuel t => t.allLocated = true → ∀ r, visit B rec fuel t = .ok r → r.allLocatedV = true)
    (fun rec fuel t => t.allLocated = true → ∀ r, visit1 B rec fuel t = .ok r → r.allLocatedV = true)
    (fun rec fuel d' pending => ∀ out, decoLoop B rec fuel d' pending = .ok out → out.res.allLocatedV = true)
    (fun rec fuel d' m r pending => r.allLocatedV = true → ∀ out, decoCont B rec fuel d' m r pending = .ok out → out.res.allLocatedV = true)
    (fun rec fuel info synKind arg target => ∀ r, expandCore B rec fuel info synKind arg target = .ok r → r.allLocatedV = true)
    (fun rec fuel expansion target => ∀ r, visitExpansion B rec fuel expansion target = .ok r → r.allLocatedV = true)
    (fun rec fuel ts => Ast.allLocatedList ts = true → ∀ rs, visitStmts B rec fuel ts = .ok rs → Ast.allLocatedList rs = true)
    (fun rec fuel t => t.allLocated = true → ∀ u, visitSingle B rec fuel t = .ok u → u.allLocated = true)
    ?_ ?_ ?_ ?_ ?_ ?_ ?_ ?_ ?_ ?_ ?_ ?_ ?_ ?_ ?_ ?_ ?_ ?_ ?_ ?_ ?_ ?_ ?_ ?_ ?_ ?_ ?_ ?_ ?_ ?_ ?_ ?_ ?_ ?_ ?_ ?_ ?_ ?_ rec fuel t
  -- 1: empty binding table
  · intro rec fuel t he h r hr
    unfold visit at hr
    simp [he] at hr
    subst hr
    simpa [VRes.allLocatedV] using h
  -- 2: Done marker
  · intro rec fuel hne u h r hr
    unfold visit at hr
    simp [hne] at hr
    subst hr
    simpa [VRes.allLocatedV] using h
  -- 3: dispatch to visit1
  · intro rec fuel hne u hnd ih h r hr
    unfold visit at hr
    simp only [hne, Bool.false_eq_true, if_false] at hr
    rcases u with _|_|_|_|_|_|w|_ <;> first
      | exact absurd rfl (hnd w)
      | exact ih h r hr
  -- 4: name macro, fuel exhausted
  · intro rec i l info hl hel h r hr
    unfold visit1 at hr
    simp [hl, hel] at hr
  -- 5: name macro
  · intro rec i l info hl hel fuel' ih4 ihv h r hr
    unfold visit1 at hr
    simp only [hl, hel, reduceIte] at hr
    cases hec : expandCore B false fuel' info "name" (.one (.name i l)) (.name i l) with
    | error e => rw [hec] at hr; simp at hr
    | ok r0 =>
      have hr0 := ih4 r0 hec
      rw [hec] at hr
      simp only [except_bind_ok] at hr
      cases r0 with
      | deleted => simp at hr; subst hr; simp [VRes.allLocatedV]
      | one u =>
        simp only [VRes.allLocatedV] at hr0
        cases rec with
        | false => simp at hr; subst hr; simpa [VRes.allLocatedV]
        | true =>
          by_cases hm : isUnmodifiedName i u = true
          · simp [hm] at hr; subst hr; simpa [VRes.allLocatedV, Ast.allLocated]
          · simp [hm] at hr
            exact ihv u hr0 r hr
      | many us =>
        cases rec with
        | false => simp at hr; subst hr; simpa [VRes.allLocatedV]
        | true => simp at hr
  -- 6: name bound, not eligible
  · intro rec fuel i l info hl hnel h r hr
    unfold visit1 at hr
    simp [hl, hnel] at hr
    subst hr
    simpa [VRes.allLocatedV]
  -- 7: name unbound
  · intro rec fuel i l hl h r hr
    unfold visit1 at hr
    simp [hl] at hr
    subst hr
    simpa [VRes.allLocatedV]
  -- 8: expr macro
  · intro rec i vl s l fuel' info hl ih4 h r hr
    unfold visit1 at hr
    simp only [hl] at hr
    exact ih4 r hr
  -- 9: expr macro, fuel exhausted
  · intro rec i vl s l val hl h r hr
    unfold visit1 at hr
    simp [hl] at hr
  -- 10: subscript with unbound name base
  · intro rec i vl s l f hl ih7a ih7b h r hr
    simp [Ast.allLocated] at h
    obtain ⟨⟨hlo, hv⟩, hs⟩ := h
    unfold visit1 at hr
    simp only [hl] at hr
    exact genericSubscriptAux B rec f _ s l hlo hs
      (ih7a (by simpa [Ast.allLocated] using hv)) (ih7b hs) r hr
  -- 11: subscript, generic
  · intro rec fuel v s l hnn ih7a ih7b h r hr
    simp [Ast.allLocated] at h
    obtain ⟨⟨hlo, hv⟩, hs⟩ := h
    unfold visit1 at hr
    rcases v with ⟨i,vl⟩|⟨v1,v2,v3⟩|⟨w1,w2,w3⟩|⟨a1,a2,a3,a4⟩|⟨b1,b2,b3,b4⟩|⟨c1,c2⟩|⟨d1⟩|⟨e1,e2,e3⟩
    · exact absurd rfl (hnn _ _)
    all_goals exact genericSubscriptAux B rec fuel _ s l hlo hs (ih7a hv) (ih7b hs) r hr
  -- 12: block macro
  · intro rec i cl body l fuel' info hl ih4 h r hr
    unfold visit1 at hr
    simp only [hl] at hr
    cases hec : expandCore B rec fuel' info "block" (.many body) (.withStmt (.name i cl) body l) with
    | error e => rw [hec] at hr; simp at hr
    | ok r0 =>
      rw [hec] at hr
      simp at hr
      subst hr
      exact coverage_allLocatedV r0 _ (ih4 r0 hec)
  -- 13: block macro, fuel exhausted
  · intro rec i cl body l val hl h r hr
    unfold visit1 at hr
    simp [hl] at hr
  -- 14: with, unbound name context
  · intro rec i cl body l f hl ih7 ih6 h r hr
    simp [Ast.allLocated] at h
    obtain ⟨⟨hlo, hc⟩, hb⟩ := h
    unfold visit1 at hr
    simp only [hl] at hr
    exact genericWithAux B rec f _ body l hlo
      (ih7 (by simpa [Ast.allLocated] using hc)) (ih6 hb) r hr
  -- 15: with, generic
  · intro rec fuel c body l hnn ih7 ih6 h r hr
    simp [Ast.allLocated] at h
    obtain ⟨⟨hlo, hc⟩, hb⟩ := h
    unfold visit1 at hr
    rcases c with ⟨i,vl⟩|⟨v1,v2,v3⟩|⟨w1,w2,w3⟩|⟨a1,a2,a3,a4⟩|⟨b1,b2,b3,b4⟩|⟨c1,c2⟩|⟨d1⟩|⟨e1,e2,e3⟩
    · exact absurd rfl (hnn _ _)
    all_goals exact genericWithAux B rec fuel _ body l hlo (ih7 hc) (ih6 hb) r hr
  -- 16: functionDef, no macro decorators
  · intro rec fuel n ds b l hde ih6a ih6b h r hr
    simp [Ast.allLocated] at h
    obtain ⟨⟨hlo, hd⟩, hb⟩ := h
    unfold visit1 at hr
    simp only [hde, reduceIte] at hr
    exact genericDefAux B rec fuel ds b
      (fun x y => VRes.one (Ast.functionDef n x y l))
      (fun x y hx hy => by simp [VRes.allLocatedV, Ast.allLocated, hlo, hx, hy])
      (ih6a hd) (ih6b hb) r hr
  -- 17: functionDef, macro decorators, fuel exhausted
  · intro rec n ds b l hde h r hr
    unfold visit1 at hr
    simp [hde] at hr
  -- 18: functionDef, macro decorators
  · intro rec n ds b l hde fuel' ih3 h r hr
    unfold visit1 at hr
    simp only [hde, Bool.false_eq_true, if_false] at hr
    cases hdl : decoLoop B rec fuel' (.functionDef n (detectDecoratorMacros B ds).2 b l)
        (detectDecoratorMacros B ds).1.reverse with
    | error e => rw [hdl] at hr; simp at hr
    | ok out =>
      rw [hdl] at hr
      simp at hr
      subst hr
      exact coverage_foldl_allLocatedV _ _ (ih3 out hdl)
  -- 19: classDef, no macro decorators
  · intro rec fuel n ds b l hde ih6a ih6b h r hr
    simp [Ast.allLocated] at h
    obtain ⟨⟨hlo, hd⟩, hb⟩ := h
    unfold visit1 at hr
    simp only [hde, reduceIte] at hr
    exact genericDefAux B rec fuel ds b
      (fun x y => VRes.one (Ast.classDef n x y l))
      (fun x y hx hy => by simp [VRes.allLocatedV, Ast.allLocated, hlo, hx, hy])
      (ih6a hd) (ih6b hb) r hr
  -- 20: classDef, macro decorators, fuel exhausted
  · intro rec n ds b l hde h r hr
    unfold visit1 at hr
    simp [hde] at hr
  -- 21: classDef, macro decorators
  · intro rec n ds b l hde fuel' ih3 h r hr
    unfold visit1 at hr
    simp only [hde, Bool.false_eq_true, if_false] at hr
    cases hdl : decoLoop B rec fuel' (.classDef n (detectDecoratorMacros B ds).2 b l)
        (detectDecoratorMacros B ds).1.reverse with
    | error e => rw [hdl] at hr; simp at hr
    | ok out =>
      rw [hdl] at hr
      simp at hr
      subst hr
      exact coverage_foldl_allLocatedV _ _ (ih3 out hdl)
  -- 22: constant
  · intro rec fuel v l h r hr
    unfold visit1 at hr
    simp at hr
    subst hr
    simpa [VRes.allLocatedV]
  -- 23: done (unreachable from visit, still total)
  · intro rec fuel u h r hr
    unfold visit1 at hr
    simp at hr
    subst hr
    simpa [VRes.allLocatedV]
  -- 24: generic node
  · intro rec fuel k cs l ih6 h r hr
    simp [Ast.allLocated] at h
    obtain ⟨hlo, hc⟩ := h
    unfold visit1 at hr
    cases h1 : visitStmts B rec fuel cs with
    | error e => rw [h1] at hr; simp at hr
    | ok cs' =>
      rw [h1] at hr
      simp at hr
      subst hr
      simp [VRes.allLocatedV, Ast.allLocated, hlo, ih6 hc cs' h1]
  -- 25: decoLoop nil
  · intro rec fuel d' out hr
    rw [decoLoop.eq_def] at hr
    simp at hr
    subst hr
    simp [VRes.allLocatedV]
  -- 26: decoLoop, unbound (unreachable)
  · intro rec fuel d' t ts hl out hr
    rw [decoLoop.eq_def] at hr
    simp [hl] at hr
  -- 27: decoLoop cons
  · intro rec fuel d' t ts info hl ih5 ih4one ih4many out hr
    rw [decoLoop.eq_def] at hr
    simp only [hl] at hr
    cases hec : expandCore B rec fuel info "decorator" (.one d') d' with
    | error e => rw [hec] at hr; simp at hr
    | ok r0 =>
      have hr0 := ih5 r0 hec
      rw [hec] at hr
      simp only [except_bind_ok] at hr
      cases r0 with
      | deleted =>
        simp at hr
        subst hr
        simp [VRes.allLocatedV]
      | one u => exact ih4one u hr0 out hr
      | many us => exact ih4many us hr0 out hr
  -- 28: decoCont nil
  · intro rec fuel d' m r hra out hr
    unfold decoCont at hr
    simp at hr
    subst hr
    simpa using hra
  -- 29: decoCont cons
  · intro rec fuel d' m r t ts ih3 hra out hr
    unfold decoCont at hr
    cases hdl : decoLoop B rec fuel d' (t :: ts) with
    | error e => rw [hdl] at hr; simp at hr
    | ok out2 =>
      rw [hdl] at hr
      simp at hr
      subst hr
      exact ih3 out2 hdl
  -- 28: expandCore
  · intro rec fuel info synKind arg target ih5 r hr
    unfold expandCore at hr
    exact ih5 r hr
  -- 29: visitExpansion deleted
  · intro rec fuel target r hr
    unfold visitExpansion at hr
    simp at hr
    subst hr
    simp [VRes.allLocatedV]
  -- 30: visitExpansion one, recursive
  · intro fuel target a t' ih1 r hr
    unfold visitExpansion at hr
    simp at hr
    exact ih1 (fixMissing_allLocated _ _) r hr
  -- 31: visitExpansion one, non-recursive
  · intro rec fuel target a hnr r hr
    unfold visitExpansion at hr
    simp [hnr] at hr
    subst hr
    simp [VRes.allLocatedV, fixMissing_allLocated]
  -- 32: visitExpansion many, recursive
  · intro fuel target a ts' ih6 r hr
    unfold visitExpansion at hr
    simp only [reduceIte] at hr
    cases h1 : visitStmts B true fuel
        (a.map (fun t => fixMissingLocations defaultLoc (copyLocation t target))) with
    | error e => rw [h1] at hr; simp at hr
    | ok rs =>
      rw [h1] at hr
      simp at hr
      subst hr
      simpa [VRes.allLocatedV] using ih6 (allLocatedList_map_fix target a) rs h1
  -- 33: visitExpansion many, non-recursive
  · intro rec fuel target a hnr r hr
    unfold visitExpansion at hr
    simp [hnr] at hr
    subst hr
    simpa [VRes.allLocatedV] using allLocatedList_map_fix target a
  -- 34: visitStmts nil
  · intro rec fuel h rs hr
    unfold visitStmts at hr
    simp at hr
    subst hr
    simp [Ast.allLocatedList]
  -- 35: visitStmts cons
  · intro rec fuel t ts ih1 ih6 h rs hr
    simp [Ast.allLocatedList] at h
    unfold visitStmts at hr
    cases h1 : visit B rec fuel t with
    | error e => rw [h1] at hr; simp at hr
    | ok r0 =>
      cases h2 : visitStmts B rec fuel ts with
      | error e => rw [h1, h2] at hr; simp at hr
      | ok rs0 =>
        have hr0 := ih1 h.1 r0 h1
        have hrs0 := ih6 h.2 rs0 h2
        rw [h1, h2] at hr
        simp only [except_bind_ok] at hr
        cases r0 with
        | deleted => simp at hr; subst hr; exact hrs0
        | one u =>
          simp at hr
          subst hr
          simp [Ast.allLocatedList, hrs0]
          simpa [VRes.allLocatedV] using hr0
        | many us =>
          simp at hr
          subst hr
          simp [allLocatedList_append, hrs0]
          simpa [VRes.allLocatedV] using hr0
  -- 36: visitSingle
  · intro rec fuel t ih1 h u hr
    unfold visitSingle at hr
    cases h1 : visit B rec fuel t with
    | error e => rw [h1] at hr; simp at hr
    | ok r0 =>
      have hr0 := ih1 h r0 h1
      rw [h1] at hr
      simp only [except_bind_ok] at hr
      cases r0 with
      | deleted => simp at hr
      | one w => simp at hr; subst hr; simpa [VRes.allLocatedV] using hr0
      | many us => simp at hr

theorem setLoc_loc (t : Ast) (l : Loc) (h : t.isDoneMarker = false) :
    (t.setLoc l).loc = some l := by
  cases t <;> simp_all [Ast.setLoc, Ast.loc, Ast.isDoneMarker]

theorem setLoc_isDone (t : Ast) (l : Loc) :
    (t.setLoc l).isDoneMarker = t.isDoneMarker := by
  cases t <;> simp [Ast.setLoc, Ast.isDoneMarker]

theorem fix_loc (d : Loc) (t : Ast) (h : t.isDoneMarker = false) :
    (fixMissingLocations d t).loc = some (t.loc.getD d) := by
  cases t <;> simp_all [fixMissingLocations, Ast.loc, Ast.isDoneMarker]

/-- C3 counterexample: a node returned by a macro that already carries
location info does not keep it — _visit_expansion's copy_location
overwrites the returned root's location (line 5, column 4) with the
invocation node's (line 1, column 0). -/
theorem visitExpansion_overwrites_existing_location :
    visitExpansion [] true 1 (.one (.constant (some 7) (some ⟨5, 4⟩))) (.name "m" (some ⟨1, 0⟩))
      = .ok (.one (.constant (some 7) (some ⟨1, 0⟩)))
    ∧ (⟨5, 4⟩ : Loc) ≠ (⟨1, 0⟩ : Loc) := by
  constructor
  · simp [visitExpansion, copyLocation, Ast.loc, Ast.setLoc, fixMissingLocations, visit]
  · decide

/-- C3 (amended): in BaseMacroExpander._visit_expansion, each returned
top-level node is stamped by copy_location with the invocation node's
location — overwriting any location it already carried — and
fix_missing_locations then fills in missing locations below it from the
nearest located ancestor, leaving already fully-located subtrees
unchanged; consequently, expanding a fully-located tree produces only
fully-located trees (location-completeness). -/
theorem visitExpansion_location_fixup
    (t target s : Ast) (l d : Loc) (B : Bindings) (rec : Bool) (fuel : Nat)
    (u : Ast) (r : VRes) :
    (t.isDoneMarker = false → target.loc = some l →
      (fixMissingLocations defaultLoc (copyLocation t target)).loc = some l)
    ∧ (s.allLocated = true → fixMissingLocations d s = s)
    ∧ (u.allLocated = true → visit B rec fuel u = .ok r → r.allLocatedV = true) := by
  refine ⟨?_, fixMissing_located_id d s, fun hu hv => visit_allLocatedV B rec fuel u hu r hv⟩
  intro hd hl
  unfold copyLocation
  rw [hl]
  rw [fix_loc defaultLoc (t.setLoc l) (by rw [setLoc_isDone]; exact hd)]
  rw [setLoc_loc t l hd]
  rfl

/-- C3 witness: the amended statement evaluated at concrete nodes. -/
theorem visitExpansion_location_fixup_witness :
    (fixMissingLocations defaultLoc
        (copyLocation (.constant (some 1) none) (.name "m" (some ⟨2, 3⟩)))).loc = some ⟨2, 3⟩
    ∧ fixMissingLocations defaultLoc (.constant (some 1) (some ⟨9, 9⟩))
        = .constant (some 1) (some ⟨9, 9⟩)
    ∧ (VRes.one (.name "x" (some ⟨1, 0⟩))).allLocatedV = true := by
  have h := visitExpansion_location_fixup (.constant (some 1) none) (.name "m" (some ⟨2, 3⟩))
    (.constant (some 1) (some ⟨9, 9⟩)) ⟨2, 3⟩ defaultLoc [] true 0
    (.name "x" (some ⟨1, 0⟩)) (.one (.name "x" (some ⟨1, 0⟩)))
  refine ⟨h.1 rfl rfl, h.2.1 (by simp [Ast.allLocated]), h.2.2 (by simp [Ast.allLocated]) (by simp [visit])⟩

theorem ismacroname_false_lookup {B : Bindings} {i : String} (h : ismacroname B i = false) :
    B.lookup i = none := by
  unfold ismacroname at h
  exact Option.not_isSome_iff_eq_none.mp (by simp [h])

theorem hasInvocation_name_false {B : Bindings} {i : String} {vl : Option Loc}
    (h : B.lookup i = none) : hasInvocation B (.name i vl) = false := by
  simp [hasInvocation, h]

theorem hasInvocation_subscript_inv {B : Bindings} {v s : Ast} {l : Option Loc}
    (h : hasInvocation B (.subscript v s l) = false) :
    hasInvocation B v = false ∧ hasInvocation B s = false := by
  cases v
  case name i vl =>
    simp only [hasInvocation] at h ⊢
    simp at h
    obtain ⟨h1, h2⟩ := h
    rw [ismacroname_false_lookup h1]
    simpa using h2
  all_goals (simp only [hasInvocation] at h ⊢; simp at h ⊢; tauto)

theorem hasInvocation_with_inv {B : Bindings} {c : Ast} {b : List Ast} {l : Option Loc}
    (h : hasInvocation B (.withStmt c b l) = false) :
    hasInvocation B c = false ∧ hasInvocationList B b = false := by
  cases c
  case name i vl =>
    simp only [hasInvocation] at h ⊢
    simp at h
    obtain ⟨h1, h2⟩ := h
    rw [ismacroname_false_lookup h1]
    simpa using h2
  all_goals (simp only [hasInvocation] at h ⊢; simp at h ⊢; tauto)

theorem hasInvocationList_cons_inv {B : Bindings} {t : Ast} {ts : List Ast}
    (h : hasInvocationList B (t :: ts) = false) :
    hasInvocation B t = false ∧ hasInvocationList B ts = false := by
  simp [hasInvocationList] at h
  exact h

theorem hasInvocation_functionDef_inv {B : Bindings} {n : String} {ds b : List Ast}
    {l : Option Loc} (h : hasInvocation B (.functionDef n ds b l) = false) :
    (detectDecoratorMacros B ds).1 = [] ∧ hasInvocationList B ds = false
      ∧ hasInvocationList B b = false := by
  simp only [hasInvocation] at h
  simp at h
  tauto

theorem hasInvocation_classDef_inv {B : Bindings} {n : String} {ds b : List Ast}
    {l : Option Loc} (h : hasInvocation B (.classDef n ds b l) = false) :
    (detectDecoratorMacros B ds).1 = [] ∧ hasInvocationList B ds = false
      ∧ hasInvocationList B b = false := by
  simp only [hasInvocation] at h
  simp at h
  tauto

mutual

theorem stripDone_noDone_id : ∀ t : Ast, t.noDone = true → stripDone t = t
  | .name i l, _ => by simp [stripDone]
  | .subscript v s l, h => by
      simp [Ast.noDone] at h
      simp [stripDone, stripDone_noDone_id v h.1, stripDone_noDone_id s h.2]
  | .withStmt c b l, h => by
      simp [Ast.noDone] at h
      simp [stripDone, stripDone_noDone_id c h.1, stripDoneList_noDone_id b h.2]
  | .functionDef n ds b l, h => by
      simp [Ast.noDone] at h
      simp [stripDone, stripDoneList_noDone_id ds h.1, stripDoneList_noDone_id b h.2]
  | .classDef n ds b l, h => by
      simp [Ast.noDone] at h
      simp [stripDone, stripDoneList_noDone_id ds h.1, stripDoneList_noDone_id b h.2]
  | .constant v l, _ => by simp [stripDone]
  | .done u, h => by simp [Ast.noDone] at h
  | .node k cs l, h => by
      simp [Ast.noDone] at h
      simp [stripDone, stripDoneList_noDone_id cs h]

theorem stripDoneList_noDone_id : ∀ ts : List Ast, Ast.noDoneList ts = true → stripDoneList ts = ts
  | [], _ => by simp [stripDoneList]
  | t :: ts, h => by
      simp [Ast.noDoneList] at h
      simp [stripDoneList, stripDone_noDone_id t h.1, stripDoneList_noDone_id ts h.2]

end

theorem visit_no_invocation_id (B : Bindings) (rec : Bool) (fuel : Nat) (t : Ast) :
    hasInvocation B t = false → visit B rec fuel t = .ok (.one t) := by
  refine visit.induct B
    (fun rec fuel t => hasInvocation B t = false → visit B rec fuel t = .ok (.one t))
    (fun rec fuel t => hasInvocation B t = false → visit1 B rec fuel t = .ok (.one t))
    (fun rec fuel d' pending => True)
    (fun rec fuel d' m r pending => True)
    (fun rec fuel info synKind arg target => True)
    (fun rec fuel expansion target => True)
    (fun rec fuel ts => hasInvocationList B ts = false → visitStmts B rec fuel ts = .ok ts)
    (fun rec fuel t => hasInvocation B t = false → visitSingle B rec fuel t = .ok t)
    ?_ ?_ ?_ ?_ ?_ ?_ ?_ ?_ ?_ ?_ ?_ ?_ ?_ ?_ ?_ ?_ ?_ ?_ ?_ ?_ ?_ ?_ ?_ ?_ ?_ ?_ ?_ ?_ ?_ ?_ ?_ ?_ ?_ ?_ ?_ ?_ ?_ ?_ rec fuel t
  -- 1: empty binding table
  · intro rec fuel t he h
    unfold visit
    simp [he]
  -- 2: Done marker
  · intro rec fuel hne u h
    unfold visit
    simp [hne]
  -- 3: dispatch to visit1
  · intro rec fuel hne u hnd ih h
    unfold visit
    simp only [hne, Bool.false_eq_true, if_false]
    rcases u with _|_|_|_|_|_|w|_ <;> first
      | exact absurd rfl (hnd w)
      | exact ih h
  -- 4: name macro, fuel exhausted (excluded by the hypothesis)
  · intro rec i l info hl hel h
    simp [hasInvocation, hl, hel] at h
  -- 5: name macro (excluded)
  · intro rec i l info hl hel fuel' ih4 ihv h
    simp [hasInvocation, hl, hel] at h
  -- 6: name bound, not eligible
  · intro rec fuel i l info hl hnel h
    unfold visit1
    simp [hl, hnel]
  -- 7: name unbound
  · intro rec fuel i l hl h
    unfold visit1
    simp [hl]
  -- 8: expr macro (excluded)
  · intro rec i vl s l fuel' info hl ih4 h
    simp [hasInvocation, ismacroname, hl] at h
  -- 9: expr macro, fuel exhausted (excluded)
  · intro rec i vl s l val hl h
    simp [hasInvocation, ismacroname, hl] at h
  -- 10: subscript with unbound name base
  · intro rec i vl s l f hl ih7a ih7b h
    obtain ⟨hv, hs⟩ := hasInvocation_subscript_inv h
    unfold visit1
    simp only [hl]
    simp [ih7a hv, ih7b hs]
  -- 11: subscript, generic
  · intro rec fuel v s l hnn ih7a ih7b h
    obtain ⟨hv, hs⟩ := hasInvocation_subscript_inv h
    unfold visit1
    rcases v with ⟨i,vl⟩|⟨v1,v2,v3⟩|⟨w1,w2,w3⟩|⟨a1,a2,a3,a4⟩|⟨b1,b2,b3,b4⟩|⟨c1,c2⟩|⟨d1⟩|⟨e1,e2,e3⟩
    · exact absurd rfl (hnn _ _)
    all_goals simp [ih7a hv, ih7b hs]
  -- 12: block macro (excluded)
  · intro rec i cl body l fuel' info hl ih4 h
    simp [hasInvocation, ismacroname, hl] at h
  -- 13: block macro, fuel exhausted (excluded)
  · intro rec i cl body l val hl h
    simp [hasInvocation, ismacroname, hl] at h
  -- 14: with, unbound name context
  · intro rec i cl body l f hl ih7 ih6 h
    obtain ⟨hc, hb⟩ := hasInvocation_with_inv h
    unfold visit1
    simp only [hl]
    simp [ih7 hc, ih6 hb]
  -- 15: with, generic
  · intro rec fuel c body l hnn ih7 ih6 h
    obtain ⟨hc, hb⟩ := hasInvocation_with_inv h
    unfold visit1
    rcases c with ⟨i,vl⟩|⟨v1,v2,v3⟩|⟨w1,w2,w3⟩|⟨a1,a2,a3,a4⟩|⟨b1,b2,b3,b4⟩|⟨c1,c2⟩|⟨d1⟩|⟨e1,e2,e3⟩
    · exact absurd rfl (hnn _ _)
    all_goals simp [ih7 hc, ih6 hb]
  -- 16: functionDef, no macro decorators
  · intro rec fuel n ds b l hde ih6a ih6b h
    obtain ⟨_, hd, hb⟩ := hasInvocation_functionDef_inv h
    unfold visit1
    simp [hde, ih6a hd, ih6b hb]
  -- 17: functionDef, macro decorators, fuel exhausted (excluded)
  · intro rec n ds b l hde h
    obtain ⟨he, _, _⟩ := hasInvocation_functionDef_inv h
    exact absurd (by simp [he]) hde
  -- 18: functionDef, macro decorators (excluded)
  · intro rec n ds b l hde fuel' ih3 h
    obtain ⟨he, _, _⟩ := hasInvocation_functionDef_inv h
    exact absurd (by simp [he]) hde
  -- 19: classDef, no macro decorators
  · intro rec fuel n ds b l hde ih6a ih6b h
    obtain ⟨_, hd, hb⟩ := hasInvocation_classDef_inv h
    unfold visit1
    simp [hde, ih6a hd, ih6b hb]
  -- 20: classDef, macro decorators, fuel exhausted (excluded)
  · intro rec n ds b l hde h
    obtain ⟨he, _, _⟩ := hasInvocation_classDef_inv h
    exact absurd (by simp [he]) hde
  -- 21: classDef, macro decorators (excluded)
  · intro rec n ds b l hde fuel' ih3 h
    obtain ⟨he, _, _⟩ := hasInvocation_classDef_inv h
    exact absurd (by simp [he]) hde
  -- 22: constant
  · intro rec fuel v l h
    unfold visit1
    simp
  -- 23: done
  · intro rec fuel u h
    unfold visit1
    simp
  -- 24: generic node
  · intro rec fuel k cs l ih6 h
    simp only [hasInvocation] at h
    unfold visit1
    simp [ih6 h]
  -- 25-29: decorator loop (not reached from invocation-free trees)
  · intro rec fuel d'
    trivial
  · intro rec fuel d' t ts hl
    trivial
  · intro rec fuel d' t ts info hl ih5 ih4a ih4b
    trivial
  · intro rec fuel d' m r
    trivial
  · intro rec fuel d' m r t ts ih3
    trivial
  -- 30: expandCore (not reached)
  · intro rec fuel info synKind arg target ih6
    trivial
  -- 31-35: visitExpansion (not reached)
  · intro rec fuel target
    trivial
  · intro fuel target a t' ih1
    trivial
  · intro rec fuel target a hnr
    trivial
  · intro fuel target a ts' ih7
    trivial
  · intro rec fuel target a hnr
    trivial
  -- 36: visitStmts nil
  · intro rec fuel h
    unfold visitStmts
    simp
  -- 37: visitStmts cons
  · intro rec fuel t ts ih1 ih6 h
    obtain ⟨h1, h2⟩ := hasInvocationList_cons_inv h
    unfold visitStmts
    simp [ih1 h1, ih6 h2]
  -- 38: visitSingle
  · intro rec fuel t ih1 h
    unfold visitSingle
    simp [ih1 h]

/-- C7: a tree containing no invocation, in any of the four syntactic
shapes, of a macro bound in the binding table is returned unchanged by
full macro expansion; in particular, expansion with an empty binding
table returns the input tree as-is.  (The tree contains no
expander-internal Done marker: markers exist only transiently inside an
expansion.) -/
theorem expandMacros_no_invocation_unchanged (B : Bindings) (fuel : Nat) (t : Ast)
    (hnd : t.noDone = true) :
    (hasInvocation B t = false → expandMacros B fuel t = .ok (.one t))
    ∧ expandMacros [] fuel t = .ok (.one t) := by
  constructor
  · intro h
    unfold expandMacros
    rw [visit_no_invocation_id B true fuel t h]
    simp [globalPostprocess, stripDone_noDone_id t hnd]
  · unfold expandMacros
    rw [show visit [] true fuel t = .ok (.one t) by unfold visit; simp]
    simp [globalPostprocess, stripDone_noDone_id t hnd]

/-- C7 witness: a module tree that mentions no bound macro is returned
as-is, both under a nonempty and under the empty binding table. -/
theorem expandMacros_no_invocation_unchanged_witness :
    (expandMacros [("m", ⟨fun _ _ => .deleted, true⟩)] 3
        (.node "Module" [.name "x" (some ⟨1, 0⟩)] (some ⟨1, 0⟩))
      = .ok (.one (.node "Module" [.name "x" (some ⟨1, 0⟩)] (some ⟨1, 0⟩))))
    ∧ expandMacros [] 3 (.node "Module" [.name "x" (some ⟨1, 0⟩)] (some ⟨1, 0⟩))
      = .ok (.one (.node "Module" [.name "x" (some ⟨1, 0⟩)] (some ⟨1, 0⟩))) := by
  have h := expandMacros_no_invocation_unchanged [("m", ⟨fun _ _ => .deleted, true⟩)] 3
    (.node "Module" [.name "x" (some ⟨1, 0⟩)] (some ⟨1, 0⟩))
    (by simp [Ast.noDone, Ast.noDoneList])
  have h2 := expandMacros_no_invocation_unchanged [] 3
    (.node "Module" [.name "x" (some ⟨1, 0⟩)] (some ⟨1, 0⟩))
    (by simp [Ast.noDone, Ast.noDoneList])
  exact ⟨h.1 (by simp [hasInvocation, hasInvocationList, List.lookup]), h2.2⟩

theorem lookup_some_not_empty {B : Bindings} {i : String} {info : MacroInfo}
    (h : B.lookup i = some info) : B.isEmpty = false := by
  cases B with
  | nil => simp [List.lookup] at h
  | cons p ps => simp [List.isEmpty]

theorem isUnmodifiedName_fix_copy (i : String) (u target : Ast) :
    isUnmodifiedName i (fixMissingLocations defaultLoc (copyLocation u target))
      = isUnmodifiedName i u := by
  unfold copyLocation
  cases target.loc with
  | none => cases u <;> simp [isUnmodifiedName, fixMissingLocations]
  | some l => cases u <;> simp [isUnmodifiedName, Ast.setLoc, fixMissingLocations]

/-- C4: name-macro gating.  A bare identifier bound to a macro that is not
declared name-macro-eligible is left unchanged as an ordinary identifier
and the macro is not invoked; a bound, eligible identifier macro is
invoked on the Name node, and when its (location-stamped) result is still
the same bare identifier the result is wrapped in a Done marker and
expansion of that node stops, while a modified result is recursively
expanded. -/
theorem visit_name_gating (B : Bindings) (fuel : Nat) (a b c : String) (l : Loc)
    (ia ib ic : MacroInfo) (u : Ast) (lb' : Option Loc)
    (ha : B.lookup a = some ia) (hna : ia.nameMacroEligible = false)
    (hb : B.lookup b = some ib) (heb : ib.nameMacroEligible = true)
    (hfb : ib.fn "name" (.one (.name b (some l))) = .one (.name b lb'))
    (hc : B.lookup c = some ic) (hec : ic.nameMacroEligible = true)
    (hfc : ic.fn "name" (.one (.name c (some l))) = .one u)
    (hmod : isUnmodifiedName c u = false) :
    visit B true fuel (.name a (some l)) = .ok (.one (.name a (some l)))
    ∧ visit B true (fuel + 1) (.name b (some l)) = .ok (.one (.done (.name b (some l))))
    ∧ visit B true (fuel + 1) (.name c (some l))
        = visit B true fuel (fixMissingLocations defaultLoc (copyLocation u (.name c (some l)))) := by
  have hne := lookup_some_not_empty ha
  refine ⟨?_, ?_, ?_⟩
  · unfold visit
    simp only [hne, Bool.false_eq_true, if_false]
    unfold visit1
    simp [ha, hna]
  · conv in visit B true (fuel + 1) (.name b (some l)) => unfold visit
    simp only [hne, Bool.false_eq_true, if_false]
    unfold visit1
    simp only [hb, heb, reduceIte]
    unfold expandCore
    rw [hfb]
    unfold visitExpansion
    simp [copyLocation, Ast.loc, Ast.setLoc, fixMissingLocations, isUnmodifiedName]
  · conv in visit B true (fuel + 1) (.name c (some l)) => unfold visit
    simp only [hne, Bool.false_eq_true, if_false]
    unfold visit1
    simp only [hc, hec, reduceIte]
    unfold expandCore
    rw [hfc]
    unfold visitExpansion
    simp only [Bool.false_eq_true, if_false, except_bind_ok]
    rw [isUnmodifiedName_fix_copy c u (.name c (some l)), hmod]
    simp

/-- C4 witness: the gating statement evaluated at a concrete binding table
holding a non-eligible macro a, a self-returning identifier macro b, and a
modifying identifier macro c. -/
theorem visit_name_gating_witness :
    visit gatingBindings true 2 (.name "a" (some ⟨1, 0⟩)) = .ok (.one (.name "a" (some ⟨1, 0⟩)))
    ∧ visit gatingBindings true 3 (.name "b" (some ⟨1, 0⟩))
        = .ok (.one (.done (.name "b" (some ⟨1, 0⟩))))
    ∧ visit gatingBindings true 3 (.name "c" (some ⟨1, 0⟩))
        = visit gatingBindings true 2
            (fixMissingLocations defaultLoc
              (copyLocation (.constant (some 5) none) (.name "c" (some ⟨1, 0⟩)))) :=
  visit_name_gating gatingBindings 2 "a" "b" "c" ⟨1, 0⟩
    ⟨fun _ _ => .deleted, false⟩
    ⟨fun _ _ => .one (.name "b" none), true⟩
    ⟨fun _ _ => .one (.constant (some 5) none), true⟩
    (.constant (some 5) none) none
    rfl rfl rfl rfl rfl rfl rfl rfl rfl

theorem decoCont_inv (B : Bindings) (rec : Bool) (fuel : Nat) (d' m : Ast) (r : VRes)
    (rest : List Ast) (out : DecoOut) (hr : decoCont B rec fuel d' m r rest = .ok out) :
    (rest = [] ∧ out = ⟨r, [m], [⟨decoId m, .one d', r⟩]⟩)
    ∨ (∃ t ts out2, rest = t :: ts ∧ decoLoop B rec fuel d' rest = .ok out2
        ∧ out = ⟨out2.res, m :: out2.executed, ⟨decoId m, .one d', r⟩ :: out2.events⟩) := by
  cases rest with
  | nil =>
    unfold decoCont at hr
    simp at hr
    subst hr
    exact Or.inl ⟨rfl, rfl⟩
  | cons t ts =>
    unfold decoCont at hr
    cases hdl : decoLoop B rec fuel d' (t :: ts) with
    | error e => rw [hdl] at hr; simp at hr
    | ok out2 =>
      rw [hdl] at hr
      simp at hr
      exact Or.inr ⟨t, ts, out2, rfl, rfl, hr.symm⟩

theorem decoLoop_spec (B : Bindings) (rec : Bool) (fuel : Nat) (d' : Ast) :
    ∀ (pending : List Ast) (out : DecoOut), decoLoop B rec fuel d' pending = .ok out →
      (∀ ev ∈ out.events, ev.arg = .one d')
      ∧ out.events.map DecoEvent.macroname = (pending.map decoId).take out.events.length
      ∧ out.executed = pending.take out.events.length
      ∧ (∀ ev ∈ out.events.dropLast, ev.result ≠ .deleted)
      ∧ (out.events.length < pending.length →
          (∃ last, out.events.getLast? = some last ∧ last.result = .deleted) ∧ out.res = .deleted)
      ∧ (pending ≠ [] → out.events ≠ [])
  | [], out, hr => by
    unfold decoLoop at hr
    simp at hr
    subst hr
    simp
  | m :: rest, out, hr => by
    unfold decoLoop at hr
    cases hlk : B.lookup (decoId m) with
    | none => rw [hlk] at hr; simp at hr
    | some info =>
      rw [hlk] at hr
      simp only [] at hr
      cases hec : expandCore B rec fuel info "decorator" (.one d') d' with
      | error e => rw [hec] at hr; simp at hr
      | ok r0 =>
        rw [hec] at hr
        simp only [except_bind_ok] at hr
        cases r0 with
        | deleted =>
          simp at hr
          subst hr
          refine ⟨by simp, by simp, by simp, by simp, ?_, by simp⟩
          intro _
          exact ⟨⟨_, rfl, rfl⟩, rfl⟩
        | one u =>
          rcases decoCont_inv B rec fuel d' m (.one u) rest out hr with
            ⟨hrest, hout⟩ | ⟨t, ts, out2, hrest, hdl, hout⟩
          · subst hrest; subst hout
            refine ⟨by simp, by simp, by simp, by simp, by simp, by simp⟩
          · subst hrest
            obtain ⟨iha, ihb, ihc, ihd, ihe, ihf⟩ := decoLoop_spec B rec fuel d' (t :: ts) out2 hdl
            have hne2 : out2.events ≠ [] := ihf (by simp)
            subst hout
            refine ⟨?_, ?_, ?_, ?_, ?_, by simp⟩
            · intro ev hev
              rcases List.mem_cons.mp hev with h | h
              · subst h; rfl
              · exact iha ev h
            · simp only [List.map_cons, List.length_cons, List.take_succ_cons, ihb]
            · simp only [List.length_cons, List.take_succ_cons, ihc]
            · intro ev hev
              rcases hev2 : out2.events with _ | ⟨e2, evs2⟩
              · exact absurd hev2 hne2
              · rw [hev2, List.dropLast_cons₂] at hev
                rcases List.mem_cons.mp hev with h | h
                · subst h; simp
                · rw [← hev2] at h  
                  exact ihd ev (by rw [hev2]; exact (by rw [← hev2]; exact h))
            · intro hlt
              simp only [List.length_cons] at hlt
              have hlt2 : out2.events.length < (t :: ts).length := by
                simpa using Nat.lt_of_succ_lt_succ hlt
              obtain ⟨⟨last2, hlast2, hdel2⟩, hres2⟩ := ihe hlt2
              refine ⟨⟨last2, ?_, hdel2⟩, by simpa using hres2⟩
              rcases hev2 : out2.events with _ | ⟨e2, evs2⟩
              · exact absurd hev2 hne2
              · rw [hev2] at hlast2
                simpa [List.getLast?_cons_cons] using hlast2
        | many us =>
          rcases decoCont_inv B rec fuel d' m (.many us) rest out hr with
            ⟨hrest, hout⟩ | ⟨t, ts, out2, hrest, hdl, hout⟩
          · subst hrest; subst hout
            refine ⟨by simp, by simp, by simp, by simp, by simp, by simp⟩
          · subst hrest
            obtain ⟨iha, ihb, ihc, ihd, ihe, ihf⟩ := decoLoop_spec B rec fuel d' (t :: ts) out2 hdl
            have hne2 : out2.events ≠ [] := ihf (by simp)
            subst hout
            refine ⟨?_, ?_, ?_, ?_, ?_, by simp⟩
            · intro ev hev
              rcases List.mem_cons.mp hev with h | h
              · subst h; rfl
              · exact iha ev h
            · simp only [List.map_cons, List.length_cons, List.take_succ_cons, ihb]
            · simp only [List.length_cons, List.take_succ_cons, ihc]
            · intro ev hev
              rcases hev2 : out2.events with _ | ⟨e2, evs2⟩
              · exact absurd hev2 hne2
              · rw [hev2, List.dropLast_cons₂] at hev
                rcases List.mem_cons.mp hev with h | h
                · subst h; simp
                · rw [← hev2] at h  
                  exact ihd ev (by rw [hev2]; exact (by rw [← hev2]; exact h))
            · intro hlt
              simp only [List.length_cons] at hlt
              have hlt2 : out2.events.length < (t :: ts).length := by
                simpa using Nat.lt_of_succ_lt_succ hlt
              obtain ⟨⟨last2, hlast2, hdel2⟩, hres2⟩ := ihe hlt2
              refine ⟨⟨last2, ?_, hdel2⟩, by simpa using hres2⟩
              rcases hev2 : out2.events with _ | ⟨e2, evs2⟩
              · exact absurd hev2 hne2
              · rw [hev2] at hlast2
                simpa [List.getLast?_cons_cons] using hlast2

/-- C1 counterexample: with stacked decorators A (outer), B (inner), the
inner macro B first returns the constant 1, but the outer macro A is then
invoked on the original definition node, not on B's result: the recorded
argument of A's invocation is the definition node, which differs from B's
result.  (The final tree even contains A's wrapping of the original
definition; B's replacement is discarded.) -/
theorem decoLoop_not_chained :
    decoLoop chainBindings true 5 chainDef [.name "B" (some ⟨2, 0⟩), .name "A" (some ⟨1, 0⟩)]
      = .ok ⟨.one (.node "Aarg" [chainDef] (some ⟨3, 0⟩)),
             [.name "B" (some ⟨2, 0⟩), .name "A" (some ⟨1, 0⟩)],
             [⟨"B", .one chainDef, .one (.constant (some 1) (some ⟨3, 0⟩))⟩,
              ⟨"A", .one chainDef, .one (.node "Aarg" [chainDef] (some ⟨3, 0⟩))⟩]⟩
    ∧ Trees.one chainDef ≠ Trees.one (.constant (some 1) (some ⟨3, 0⟩)) := by
  constructor
  · simp [decoLoop, decoCont, expandCore, visitExpansion, visit, visit1, visitStmts,
      chainBindings, chainA, chainB, chainDef, decoId, List.lookup, copyLocation,
      Ast.loc, Ast.setLoc, fixMissingLocations, fixMissingList, detectDecoratorMacros,
      isMacroDecoratorName, ismacroname]
  · simp [chainDef]

/-- C1 (amended): for a definition with stacked macro decorators, the
expander invokes the macro functions in innermost-to-outermost order, but
passes every one of them the same argument — the definition node with its
macro decorators stripped — rather than the previous macro's result
(macros communicate only by mutating that shared node in place); as soon
as a step returns None, the remaining outer macros are not invoked and
the overall result is None. -/
theorem decoratorMacros_order_args_shortcircuit
    (B : Bindings) (rec : Bool) (fuel : Nat) (n : String) (ds b : List Ast) (l : Option Loc)
    (out : DecoOut)
    (hr : decoLoop B rec fuel (.functionDef n (detectDecoratorMacros B ds).2 b l)
            (detectDecoratorMacros B ds).1.reverse = .ok out) :
    (∀ ev ∈ out.events, ev.arg = .one (.functionDef n (detectDecoratorMacros B ds).2 b l))
    ∧ out.events.map DecoEvent.macroname
        = ((detectDecoratorMacros B ds).1.reverse.map decoId).take out.events.length
    ∧ out.executed = (detectDecoratorMacros B ds).1.reverse.take out.events.length
    ∧ (∀ ev ∈ out.events.dropLast, ev.result ≠ .deleted)
    ∧ (out.events.length < (detectDecoratorMacros B ds).1.length →
        (∃ last, out.events.getLast? = some last ∧ last.result = .deleted) ∧ out.res = .deleted) := by
  obtain ⟨ha, hb, hc, hd, he, hf⟩ := decoLoop_spec B rec fuel _ _ out hr
  exact ⟨ha, hb, hc, hd, by simpa using he⟩

/-- C1 witness: the amended statement evaluated on the stacked decorators
@A @B over a concrete definition node. -/
theorem decoratorMacros_order_args_shortcircuit_witness :
    (∀ ev ∈ chainOut.events, ev.arg
        = .one (.functionDef "f" (detectDecoratorMacros chainBindings chainDecs).2
            [.constant (some 0) (some ⟨3, 4⟩)] (some ⟨3, 0⟩)))
    ∧ chainOut.events.map DecoEvent.macroname
        = ((detectDecoratorMacros chainBindings chainDecs).1.reverse.map decoId).take
            chainOut.events.length
    ∧ chainOut.executed
        = (detectDecoratorMacros chainBindings chainDecs).1.reverse.take chainOut.events.length
    ∧ (∀ ev ∈ chainOut.events.dropLast, ev.result ≠ .deleted)
    ∧ (chainOut.events.length < (detectDecoratorMacros chainBindings chainDecs).1.length →
        (∃ last, chainOut.events.getLast? = some last ∧ last.result = .deleted)
        ∧ chainOut.res = .deleted) :=
  decoratorMacros_order_args_shortcircuit chainBindings true 5 "f" chainDecs
    [.constant (some 0) (some ⟨3, 4⟩)] (some ⟨3, 0⟩) chainOut
    (by simp [decoLoop, decoCont, expandCore, visitExpansion, visit, visit1, visitStmts,
      chainBindings, chainA, chainB, chainDef, chainDecs, chainOut, decoId, List.lookup,
      copyLocation, Ast.loc, Ast.setLoc, fixMissingLocations, fixMissingList,
      detectDecoratorMacros, isMacroDecoratorName, ismacroname])

theorem lookup_append {α β : Type} [BEq α] (k : α) (l1 l2 : List (α × β)) :
    List.lookup k (l1 ++ l2)
      = match List.lookup k l1 with
        | some v => some v
        | none => List.lookup k l2 := by
  induction l1 with
  | nil => simp [List.lookup]
  | cons p ps ih =>
    rcases p with ⟨a, b⟩
    by_cases h : k == a
    · simp [List.lookup, h]
    · simp [List.lookup, h, ih]

theorem bindPairs_spec (fullname : String) (module : PMod) :
    ∀ (names : List (String × Option String)) (bs : List (String × PVal)),
      bindPairs fullname module names = .ok bs →
      bs.length = names.length
      ∧ ∀ (k : Nat) (p : String × Option String), names[k]? = some p →
          ∃ v, module.lookup p.1 = some v ∧ bs[k]? = some (p.2.getD p.1, v)
  | [], bs, h => by
    unfold bindPairs at h
    simp at h
    subst h
    simp
  | (nm, as) :: rest, bs, h => by
    unfold bindPairs at h
    cases hl : module.lookup nm with
    | none => rw [hl] at h; simp at h
    | some v =>
      rw [hl] at h
      cases hrest : bindPairs fullname module rest with
      | error e => rw [hrest] at h; simp at h
      | ok bs2 =>
        rw [hrest] at h
        simp at h
        obtain ⟨hlen, hget⟩ := bindPairs_spec fullname module rest bs2 hrest
        subst h
        refine ⟨by simp [hlen], ?_⟩
        intro k p hk
        cases k with
        | zero =>
          simp at hk
          subst hk
          exact ⟨v, hl, by simp⟩
        | succ k2 =>
          simp at hk
          obtain ⟨v2, hv2, hb2⟩ := hget k2 p hk
          exact ⟨v2, hv2, by simpa using hb2⟩

theorem getMacrosOf_resolved (env : PEnv) (pkg : PkgRes) (m : String) (level : Nat)
    (names : List (String × Option String)) (loc : Option Loc) (fullname : String)
    (bs : List (String × PVal))
    (h : getMacrosOf env pkg (.importFrom (some m) level names loc) = .ok (fullname, bs)) :
    (level = 0 → fullname = m)
    ∧ (level ≠ 0 → ∃ p, pkg = .pkg p ∧ resolveName level m p = some fullname)
    ∧ ∃ module, env.lookup fullname = some module
        ∧ bindPairs fullname module names.tail = .ok bs := by
  unfold getMacrosOf at h
  simp at h
  by_cases hlv : level = 0
  · rw [if_pos (by simp [hlv])] at h
    simp only [except_bind_ok] at h
    cases hl : env.lookup m with
    | none => rw [hl] at h; simp at h
    | some module =>
      rw [hl] at h
      replace h : (do
          let bs ← bindPairs m module names.tail
          Except.ok (m, bs) : Except PErr (String × List (String × PVal)))
            = Except.ok (fullname, bs) := h
      cases hb : bindPairs m module names.tail with
      | error e => rw [hb] at h; simp at h
      | ok bs2 =>
        rw [hb] at h
        simp at h
        obtain ⟨h1, h2⟩ := h
        subst h1
        subst h2
        exact ⟨fun _ => rfl, fun hc => absurd hlv hc, module, hl, hb⟩
  · rw [if_neg (by simp [hlv])] at h
    cases pkg with
    | noPackage => simp at h
    | undetermined => simp at h
    | pkg p =>
      dsimp only at h
      cases hr : resolveName level m p with
      | none => rw [hr] at h; simp at h
      | some f =>
        rw [hr] at h
        replace h : (do
            let fullname2 ← (Except.ok f : Except PErr String)
            match env.lookup fullname2 with
            | none => Except.error (PErr.importError fullname2)
            | some module => do
                let bs ← bindPairs fullname2 module names.tail
                Except.ok (fullname2, bs)) = Except.ok (fullname, bs) := h
        simp only [except_bind_ok] at h
        cases hl : env.lookup f with
        | none => rw [hl] at h; simp at h
        | some module =>
          rw [hl] at h
          replace h : (do
              let bs ← bindPairs f module names.tail
              Except.ok (f, bs) : Except PErr (String × List (String × PVal)))
                = Except.ok (fullname, bs) := h
          cases hb : bindPairs f module names.tail with
          | error e => rw [hb] at h; simp at h
          | ok bs2 =>
            rw [hb] at h
            simp at h
            obtain ⟨h1, h2⟩ := h
            subst h1
            subst h2
            exact ⟨fun hc => absurd hc hlv, fun _ => ⟨p, rfl, hr⟩, module, hl, hb⟩

theorem findMacros_not_bound (env : PEnv) (pkg : PkgRes) (key : String) :
    ∀ (body : List PStmt) (Bnd : List (String × PVal)) (body' : List PStmt),
      findMacros env pkg body = .ok (Bnd, body') →
      (∀ (j : Nat) s', body[j]? = some s' → isMacroImport s' = true →
        ∀ f' bs', getMacrosOf env pkg s' = .ok (f', bs') →
          bs'.reverse.lookup key = none) →
      Bnd.reverse.lookup key = none
  | [], Bnd, body', h, hnb => by
    unfold findMacros at h
    simp at h
    rw [h.1]
    simp [List.lookup]
  | s :: rest, Bnd, body', h, hnb => by
    unfold findMacros at h
    by_cases him : isMacroImport s = true
    · simp only [him, if_true] at h
      cases hg : getMacrosOf env pkg s with
      | error e => rw [hg] at h; simp at h
      | ok p =>
        rw [hg] at h
        cases hrest : findMacros env pkg rest with
        | error e => rw [hrest] at h; simp at h
        | ok q =>
          rw [hrest] at h
          simp at h
          obtain ⟨h1, h2⟩ := h
          rw [← h1]
          have ihrest := findMacros_not_bound env pkg key rest q.1 q.2 (by simp [hrest])
            (fun j s' hj => hnb (j + 1) s' (by simpa using hj))
          have hthis := hnb 0 s (by simp) him p.1 p.2 (by simpa using hg)
          rw [List.reverse_append, lookup_append, ihrest]
          exact hthis
    · simp only [him, if_false, Bool.false_eq_true] at h
      cases hrest : findMacros env pkg rest with
      | error e => rw [hrest] at h; simp at h
      | ok q =>
        rw [hrest] at h
        simp at h
        obtain ⟨h1, h2⟩ := h
        rw [← h1]
        exact findMacros_not_bound env pkg key rest q.1 q.2 (by simp [hrest])
          (fun j s' hj => hnb (j + 1) s' (by simpa using hj))

theorem findMacros_body_spec (env : PEnv) (pkg : PkgRes) :
    ∀ (body : List PStmt) (Bnd : List (String × PVal)) (body' : List PStmt),
      findMacros env pkg body = .ok (Bnd, body') →
      body'.length = body.length
      ∧ (∀ (i : Nat) s, body[i]? = some s → isMacroImport s = false → body'[i]? = some s)
      ∧ (∀ (i : Nat) s fullname bs, body[i]? = some s → isMacroImport s = true →
          getMacrosOf env pkg s = .ok (fullname, bs) →
          body'[i]? = some (.importStmt [(fullname, none)] s.loc))
  | [], Bnd, body', h => by
    unfold findMacros at h
    simp at h
    rw [h.2]
    refine ⟨rfl, ?_, ?_⟩ <;> intro i <;> simp
  | s :: rest, Bnd, body', h => by
    unfold findMacros at h
    by_cases him : isMacroImport s = true
    · simp only [him, if_true] at h
      cases hg : getMacrosOf env pkg s with
      | error e => rw [hg] at h; simp at h
      | ok p =>
        rw [hg] at h
        cases hrest : findMacros env pkg rest with
        | error e => rw [hrest] at h; simp at h
        | ok q =>
          rw [hrest] at h
          simp at h
          obtain ⟨ih1, ih2, ih3⟩ := findMacros_body_spec env pkg rest q.1 q.2 (by simp [hrest])
          obtain ⟨h1, h2⟩ := h
          rw [← h2]
          refine ⟨by simp [ih1], ?_, ?_⟩
          · intro i s2 hi hnm
            cases i with
            | zero => simp at hi; rw [hi] at him; rw [him] at hnm; cases hnm
            | succ i2 => simp at hi ⊢; exact ih2 i2 s2 hi hnm
          · intro i s2 fullname bs hi him2 hg2
            cases i with
            | zero =>
              simp at hi
              subst hi
              rw [hg] at hg2
              simp at hg2
              subst hg2
              simp
            | succ i2 => simp at hi ⊢; exact ih3 i2 s2 fullname bs hi him2 hg2
    · simp only [him, if_false, Bool.false_eq_true] at h
      cases hrest : findMacros env pkg rest with
      | error e => rw [hrest] at h; simp at h
      | ok q =>
        rw [hrest] at h
        simp at h
        obtain ⟨ih1, ih2, ih3⟩ := findMacros_body_spec env pkg rest q.1 q.2 (by simp [hrest])
        obtain ⟨h1, h2⟩ := h
        rw [← h2]
        refine ⟨by simp [ih1], ?_, ?_⟩
        · intro i s2 hi hnm
          cases i with
          | zero => simp at hi; subst hi; simp
          | succ i2 => simp at hi ⊢; exact ih2 i2 s2 hi hnm
        · intro i s2 fullname bs hi him2 hg2
          cases i with
          | zero => simp at hi; subst hi; rw [him2] at him; cases him rfl
          | succ i2 => simp at hi ⊢; exact ih3 i2 s2 fullname bs hi him2 hg2

theorem findMacros_binds (env : PEnv) (pkg : PkgRes) (key : String) (v : PVal) :
    ∀ (body : List PStmt) (Bnd : List (String × PVal)) (body' : List PStmt)
      (i : Nat) (s : PStmt) (fullname : String) (bs : List (String × PVal)),
      findMacros env pkg body = .ok (Bnd, body') →
      body[i]? = some s → isMacroImport s = true →
      getMacrosOf env pkg s = .ok (fullname, bs) →
      bs.reverse.lookup key = some v →
      (∀ (j : Nat) s', body[j]? = some s' → j > i → isMacroImport s' = true →
        ∀ f' bs', getMacrosOf env pkg s' = .ok (f', bs') → bs'.reverse.lookup key = none) →
      dictLookup Bnd key = some v
  | [], Bnd, body', i, s, fullname, bs, h, hi, him, hg, hk, hnb => by simp at hi
  | s0 :: rest, Bnd, body', i, s, fullname, bs, h, hi, him, hg, hk, hnb => by
    unfold findMacros at h
    cases i with
    | zero =>
      simp at hi
      subst hi
      simp only [him, if_true] at h
      rw [hg] at h
      cases hrest : findMacros env pkg rest with
      | error e => rw [hrest] at h; simp at h
      | ok q =>
        rw [hrest] at h
        simp at h
        obtain ⟨h1, h2⟩ := h
        rw [← h1]
        have hnone : q.1.reverse.lookup key = none :=
          findMacros_not_bound env pkg key rest q.1 q.2 (by simp [hrest])
            (fun j s' hj hmj f' bs' hg' =>
              hnb (j + 1) s' (by simpa using hj) (by omega) hmj f' bs' hg')
        unfold dictLookup
        rw [List.reverse_append, lookup_append, hnone]
        exact hk
    | succ i2 =>
      simp at hi
      by_cases him0 : isMacroImport s0 = true
      · simp only [him0, if_true] at h
        cases hg0 : getMacrosOf env pkg s0 with
        | error e => rw [hg0] at h; simp at h
        | ok p =>
          rw [hg0] at h
          cases hrest : findMacros env pkg rest with
          | error e => rw [hrest] at h; simp at h
          | ok q =>
            rw [hrest] at h
            simp at h
            obtain ⟨h1, h2⟩ := h
            rw [← h1]
            have ihv : dictLookup q.1 key = some v :=
              findMacros_binds env pkg key v rest q.1 q.2 i2 s fullname bs (by simp [hrest])
                hi him hg hk
                (fun j s' hj hgt hmj f' bs' hg' =>
                  hnb (j + 1) s' (by simpa using hj) (by omega) hmj f' bs' hg')
            unfold dictLookup at ihv ⊢
            rw [List.reverse_append, lookup_append, ihv]
      · simp only [him0, if_false, Bool.false_eq_true] at h
        cases hrest : findMacros env pkg rest with
        | error e => rw [hrest] at h; simp at h
        | ok q =>
          rw [hrest] at h
          simp at h
          obtain ⟨h1, h2⟩ := h
          rw [← h1]
          exact findMacros_binds env pkg key v rest q.1 q.2 i2 s fullname bs (by simp [hrest])
            hi him hg hk
            (fun j s' hj hgt hmj f' bs' hg' =>
              hnb (j + 1) s' (by simpa using hj) (by omega) hmj f' bs' hg')

/-- C5: macro discovery replaces each top-level macro-import statement in
place with a plain absolute import of the resolved module — regardless of
how the import was written: for an absolute import the named module
itself, for a relative import the name resolved against the importing
file's package to an absolute dotted name — carrying the original
statement's location, leaves every other statement unchanged, and returns
a binding table mapping each listed name — or its alias when given — to
the same-named attribute of the resolved, imported module (later
macro-imports update earlier bindings, as dict.update does). -/
theorem findMacros_rewrites_imports_and_binds
    (env : PEnv) (pkg : PkgRes) (body : List PStmt)
    (Bnd : List (String × PVal)) (body' : List PStmt)
    (hok : findMacros env pkg body = .ok (Bnd, body')) :
    body'.length = body.length
    ∧ (∀ (i : Nat) s, body[i]? = some s → isMacroImport s = false → body'[i]? = some s)
    ∧ (∀ (i : Nat) (m : String) (level : Nat) names loc fullname bs,
        body[i]? = some (.importFrom (some m) level names loc) →
        isMacroImport (.importFrom (some m) level names loc) = true →
        getMacrosOf env pkg (.importFrom (some m) level names loc) = .ok (fullname, bs) →
        (level = 0 → fullname = m)
        ∧ (level ≠ 0 → ∃ p, pkg = .pkg p ∧ resolveName level m p = some fullname)
        ∧ body'[i]? = some (.importStmt [(fullname, none)] loc)
        ∧ ∃ module, env.lookup fullname = some module
            ∧ bs.length = names.tail.length
            ∧ (∀ (k : Nat) (p : String × Option String), names.tail[k]? = some p →
                ∃ v, module.lookup p.1 = some v ∧ bs[k]? = some (p.2.getD p.1, v)))
    ∧ (∀ (i : Nat) s fullname bs (key : String) (v : PVal),
        body[i]? = some s → isMacroImport s = true →
        getMacrosOf env pkg s = .ok (fullname, bs) →
        bs.reverse.lookup key = some v →
        (∀ (j : Nat) s', body[j]? = some s' → j > i → isMacroImport s' = true →
          ∀ f' bs', getMacrosOf env pkg s' = .ok (f', bs') → bs'.reverse.lookup key = none) →
        dictLookup Bnd key = some v) := by
  obtain ⟨hlen, hun, hrw⟩ := findMacros_body_spec env pkg body Bnd body' hok
  refine ⟨hlen, hun, ?_, ?_⟩
  · intro i m level names loc fullname bs hi him hg
    obtain ⟨habs, hrel, module, hmod, hbp⟩ :=
      getMacrosOf_resolved env pkg m level names loc fullname bs hg
    obtain ⟨hbl, hbg⟩ := bindPairs_spec fullname module names.tail bs hbp
    refine ⟨habs, hrel, ?_, module, hmod, hbl, hbg⟩
    have h2 := hrw i _ fullname bs hi him hg
    simpa [PStmt.loc] using h2
  · intro i s fullname bs key v hi him hg hk hnb
    exact findMacros_binds env pkg key v body Bnd body' i s fullname bs hok hi him hg hk hnb

/-- C5 witness: discovery on a concrete module body holding one relative
and one absolute macro-import. -/
theorem findMacros_rewrites_imports_and_binds_witness :
    ([.importStmt [("app.sub.mymacros", none)] (some ⟨1, 0⟩),
      .importStmt [("pkg.macros", none)] (some ⟨2, 0⟩),
      PStmt.other "x = 1" (some ⟨3, 0⟩)] : List PStmt).length = exBody.length
    ∧ (∀ (i : Nat) s, exBody[i]? = some s → isMacroImport s = false →
        ([.importStmt [("app.sub.mymacros", none)] (some ⟨1, 0⟩),
          .importStmt [("pkg.macros", none)] (some ⟨2, 0⟩),
          PStmt.other "x = 1" (some ⟨3, 0⟩)] : List PStmt)[i]? = some s)
    ∧ (∀ (i : Nat) (m : String) (level : Nat) names loc fullname bs,
        exBody[i]? = some (.importFrom (some m) level names loc) →
        isMacroImport (.importFrom (some m) level names loc) = true →
        getMacrosOf exPEnv exPkg (.importFrom (some m) level names loc) = .ok (fullname, bs) →
        (level = 0 → fullname = m)
        ∧ (level ≠ 0 → ∃ p, exPkg = .pkg p ∧ resolveName level m p = some fullname)
        ∧ ([.importStmt [("app.sub.mymacros", none)] (some ⟨1, 0⟩),
            .importStmt [("pkg.macros", none)] (some ⟨2, 0⟩),
            PStmt.other "x = 1" (some ⟨3, 0⟩)] : List PStmt)[i]?
              = some (.importStmt [(fullname, none)] loc)
        ∧ ∃ module, exPEnv.lookup fullname = some module
            ∧ bs.length = names.tail.length
            ∧ (∀ (k : Nat) (p : String × Option String), names.tail[k]? = some p →
                ∃ v, module.lookup p.1 = some v ∧ bs[k]? = some (p.2.getD p.1, v)))
    ∧ (∀ (i : Nat) s fullname bs (key : String) (v : PVal),
        exBody[i]? = some s → isMacroImport s = true →
        getMacrosOf exPEnv exPkg s = .ok (fullname, bs) →
        bs.reverse.lookup key = some v →
        (∀ (j : Nat) s', exBody[j]? = some s' → j > i → isMacroImport s' = true →
          ∀ f' bs', getMacrosOf exPEnv exPkg s' = .ok (f', bs') → bs'.reverse.lookup key = none) →
        dictLookup [("foo", "FOO"), ("b", "BAR")] key = some v) :=
  findMacros_rewrites_imports_and_binds exPEnv exPkg exBody
    [("foo", "FOO"), ("b", "BAR")]
    [.importStmt [("app.sub.mymacros", none)] (some ⟨1, 0⟩),
      .importStmt [("pkg.macros", none)] (some ⟨2, 0⟩),
      PStmt.other "x = 1" (some ⟨3, 0⟩)]
    rfl

theorem findUnseen_spec (seen : List DLine) :
    ∀ (text : DText) (m : String) (ns : List String),
      findUnseenDialectimport seen text = some (m, ns) →
      DLine.dimport m ns ∉ seen ∧ DLine.dimport m ns ∈ text
  | [], m, ns, h => by simp [findUnseenDialectimport] at h
  | .dimport m2 ns2 :: rest, m, ns, h => by
    unfold findUnseenDialectimport at h
    by_cases hs : seen.contains (DLine.dimport m2 ns2)
    · simp only [hs, if_true] at h
      obtain ⟨h1, h2⟩ := findUnseen_spec seen rest m ns h
      exact ⟨h1, by simp [h2]⟩
    · simp only [hs, Bool.false_eq_true, if_false] at h
      simp at h
      obtain ⟨h1, h2⟩ := h
      subst h1
      subst h2
      refine ⟨?_, by simp⟩
      intro hmem
      exact hs (by simpa [List.contains] using List.elem_iff.mpr hmem)
  | .srcline s :: rest, m, ns, h => by
    unfold findUnseenDialectimport at h
    obtain ⟨h1, h2⟩ := findUnseen_spec seen rest m ns h
    exact ⟨h1, by simp [h2]⟩

theorem transformSourceD_spec (env : DEnv) :
    ∀ (fuel : Nat) (seen : List DLine) (text tf : DText) (seenf : List DLine)
      (evs : List SrcEvent),
      transformSourceD env fuel seen text = .ok (tf, seenf, evs) →
      (evs.map SrcEvent.line).Nodup
      ∧ (∀ ev ∈ evs, ev.line ∉ seen)
      ∧ findUnseenDialectimport seenf tf = none
  | 0, seen, text, tf, seenf, evs, h => by
    unfold transformSourceD at h
    simp at h
  | fuel + 1, seen, text, tf, seenf, evs, h => by
    unfold transformSourceD at h
    cases hf : findUnseenDialectimport seen text with
    | none =>
      rw [hf] at h
      simp at h
      obtain ⟨h1, h2, h3⟩ := h
      subst h1; subst h2; subst h3
      exact ⟨by simp, by simp, hf⟩
    | some p =>
      rw [hf] at h
      obtain ⟨m, ns⟩ := p
      dsimp only at h
      obtain ⟨hnotseen, hintext⟩ := findUnseen_spec seen text m ns hf
      cases hg : getDialects env m ns with
      | error e => rw [hg] at h; simp at h
      | ok q =>
        rw [hg] at h
        simp only [except_bind_ok] at h
        by_cases hbs : q.2.isEmpty = true
        · rw [if_pos hbs] at h
          obtain ⟨ih1, ih2, ih3⟩ := transformSourceD_spec env fuel _ _ _ _ _ h
          exact ⟨ih1, fun ev hev => fun hseen => ih2 ev hev (by simp [hseen]), ih3⟩
        · rw [if_neg hbs] at h
          cases ha : applySourceDialects q.1 q.2 text with
          | error e => rw [ha] at h; simp at h
          | ok text2 =>
            rw [ha] at h
            simp only [except_bind_ok] at h
            cases hrec : transformSourceD env fuel (DLine.dimport m ns :: seen) text2 with
            | error e => rw [hrec] at h; simp at h
            | ok r =>
              rw [hrec] at h
              simp at h
              obtain ⟨h1, h2, h3⟩ := h
              obtain ⟨ih1, ih2, ih3⟩ := transformSourceD_spec env fuel _ _ _ _ _ hrec
              subst h1; subst h2
              rw [← h3]
              refine ⟨?_, ?_, ih3⟩
              · simp only [List.map_cons, List.nodup_cons]
                refine ⟨?_, ih1⟩
                intro hmem
                obtain ⟨ev, hev, hevl⟩ := List.mem_map.mp hmem
                exact ih2 ev hev (by simp [hevl])
              · intro ev hev
                rcases List.mem_cons.mp hev with hh | hh
                · subst hh; exact hnotseen
                · intro hseen
                  exact ih2 ev hh (by simp [hseen])

/-- C6: during one run of the dialect source-transform stage, the
processed dialect-import lines are pairwise distinct (each unique line,
compared by exact text through the seen-set, triggers the application of
its dialects' source transformers to the entire text exactly once, never
again), and when the stage terminates normally no unseen dialect-import
line remains in the final text — even though the text is rescanned from
the beginning after every application and a transformer may insert,
remove or relocate text. -/
theorem transformSource_unique_lines (env : DEnv) (fuel : Nat) (text tf : DText)
    (seenf : List DLine) (evs : List SrcEvent)
    (h : transformSourceD env fuel [] text = .ok (tf, seenf, evs)) :
    (evs.map SrcEvent.line).Nodup ∧ findUnseenDialectimport seenf tf = none := by
  obtain ⟨h1, _, h3⟩ := transformSourceD_spec env fuel [] text tf seenf evs h
  exact ⟨h1, h3⟩

/-- C6 witness: dialect-imports of DialectA and DialectB, where A's source
transformer inserts unrelated text; each line is processed exactly once. -/
theorem transformSource_unique_lines_witness :
    (([⟨.dimport "modA" ["A"], ["A"]⟩, ⟨.dimport "modB" ["B"], ["B"]⟩] : List SrcEvent).map
        SrcEvent.line).Nodup
    ∧ findUnseenDialectimport [.dimport "modB" ["B"], .dimport "modA" ["A"]]
        [.dimport "modA" ["A"], .dimport "modB" ["B"], .srcline "x", .srcline "inserted"]
      = none :=
  transformSource_unique_lines scanEnv 5 scanText
    [.dimport "modA" ["A"], .dimport "modB" ["B"], .srcline "x", .srcline "inserted"]
    [.dimport "modB" ["B"], .dimport "modA" ["A"]]
    [⟨.dimport "modA" ["A"], ["A"]⟩, ⟨.dimport "modB" ["B"], ["B"]⟩]
    rfl

theorem applySourceDialects_notDialect (absname n descr : String) (post : List (String × DValue)) :
    ∀ (pre : List (String × DValue)) (text : DText),
      (∀ p ∈ pre, p.2.isDialect = true) →
      applySourceDialects absname (pre ++ (n, .notDialect descr) :: post) text
        = .error (.typeError (absname ++ "." ++ n))
  | [], text, _ => by simp [applySourceDialects]
  | (n2, v2) :: pre2, text, hpre => by
    have hv2 : v2.isDialect = true := hpre (n2, v2) (by simp)
    cases v2 with
    | notDialect d2 => simp [DValue.isDialect] at hv2
    | dialect srcT astT =>
      unfold applySourceDialects
      exact applySourceDialects_notDialect absname n descr post pre2 (srcT text)
        (fun p hp => hpre p (by simp [hp]))

/-- C8 counterexample: when a name listed in a dialect-import resolves to
an attribute that is not a Dialect, the source-transform stage fails with
a TypeError carrying the offending dotted name — which is not an
ImportError-class error, contradicting the claim's error class. -/
theorem dialect_typeError_not_importError :
    transformSourceD badEnv 3 [] [.dimport "modX" ["d"]] = .error (.typeError "modX.d")
    ∧ (DErr.typeError "modX.d").isImportError = false :=
  ⟨rfl, rfl⟩

/-- C8 (amended): whenever a name listed in a dialect-import statement
resolves to an attribute that is not a Dialect (every earlier-listed name
on the line being a Dialect), the source-transform stage fails with a
TypeError — not an ImportError-class error — whose message contains the
offending dotted name (module and attribute), and the offending
dialect's transform is never applied (expansion aborts at the check). -/
theorem dialect_notDialect_raises_typeError (env : DEnv) (fuel : Nat) (seen : List DLine)
    (text : DText) (m : String) (ns : List String) (absname n descr : String)
    (pre post : List (String × DValue))
    (hf : findUnseenDialectimport seen text = some (m, ns))
    (hg : getDialects env m ns = .ok (absname, pre ++ (n, .notDialect descr) :: post))
    (hpre : ∀ p ∈ pre, p.2.isDialect = true) :
    transformSourceD env (fuel + 1) seen text = .error (.typeError (absname ++ "." ++ n))
    ∧ (DErr.typeError (absname ++ "." ++ n)).isImportError = false := by
  refine ⟨?_, rfl⟩
  unfold transformSourceD
  rw [hf]
  dsimp only
  rw [hg]
  simp only [except_bind_ok]
  rw [if_neg (by simp)]
  rw [applySourceDialects_notDialect absname n descr post pre text hpre]
  rfl

/-- C8 witness: the amended statement at the concrete environment. -/
theorem dialect_notDialect_raises_typeError_witness :
    transformSourceD badEnv (2 + 1) [] [.dimport "modX" ["d"]]
      = .error (.typeError ("modX" ++ "." ++ "d"))
    ∧ (DErr.typeError ("modX" ++ "." ++ "d")).isImportError = false :=
  dialect_notDialect_raises_typeError badEnv 2 [] [.dimport "modX" ["d"]] "modX" ["d"]
    "modX" "d" "a string" [] [] rfl rfl (by simp)

/-- C2 (code bug): the dialect expander's top-level entry point runs the
source-transform stage but then parses the ORIGINAL data, discarding the
source-transformed text, so its result diverges from the spec's data flow
(source transforms, then parse the transformed text, then AST transforms):
on a module with a dialect whose source transformer rewrites x = 1 to
x = 2, the code keeps x = 1 while the spec's flow produces x = 2. -/
theorem dexpand_parses_original_data :
    dexpand parseLines exDEnv 5 exData
      = .ok [PStmt.importStmt [("modD", none)] (some ⟨1, 0⟩), PStmt.other "x = 1" none]
    ∧ dexpandSpec parseLines exDEnv 5 exData
      = .ok [PStmt.importStmt [("modD", none)] (some ⟨1, 0⟩), PStmt.other "x = 2" none]
    ∧ dexpand parseLines exDEnv 5 exData ≠ dexpandSpec parseLines exDEnv 5 exData :=
  ⟨rfl, rfl, by
    intro h
    have h2 : ([PStmt.importStmt [("modD", none)] (some ⟨1, 0⟩), PStmt.other "x = 1" none]
        : List PStmt) = [PStmt.importStmt [("modD", none)] (some ⟨1, 0⟩), PStmt.other "x = 2" none] :=
      Except.ok.inj h
    simp at h2⟩

theorem freshCopy_spec : ∀ (c : Nat) (t : STree),
    c ≤ (freshCopy c t).2
    ∧ (∀ o ∈ oids (freshCopy c t).1, c ≤ o ∧ o < (freshCopy c t).2)
    ∧ eraseOids (freshCopy c t).1 = eraseOids t := by
  refine freshCopy.induct
    (fun c t => c ≤ (freshCopy c t).2
      ∧ (∀ o ∈ oids (freshCopy c t).1, c ≤ o ∧ o < (freshCopy c t).2)
      ∧ eraseOids (freshCopy c t).1 = eraseOids t)
    (fun c l => c ≤ (freshCopyList c l).2
      ∧ (∀ o ∈ oidsList (freshCopyList c l).1, c ≤ o ∧ o < (freshCopyList c l).2)
      ∧ eraseOidsList (freshCopyList c l).1 = eraseOidsList l)
    ?_ ?_ ?_ ?_ ?_
  · intro c o v ih
    obtain ⟨h1, h2, h3⟩ := ih
    simp only [freshCopy, oids, eraseOids, List.mem_cons]
    refine ⟨by omega, ?_, by rw [h3]⟩
    intro o2 ho2
    rcases ho2 with h | h
    · omega
    · have := h2 o2 h
      omega
  · intro c o i
    simp only [freshCopy, oids, eraseOids, List.mem_singleton]
    refine ⟨by omega, ?_, by simp [eraseOids]⟩
    intro o2 ho2
    omega
  · intro c o k b ih
    obtain ⟨h1, h2, h3⟩ := ih
    simp only [freshCopy, oids, eraseOids, List.mem_cons]
    refine ⟨by omega, ?_, by rw [h3]⟩
    intro o2 ho2
    rcases ho2 with h | h
    · omega
    · have := h2 o2 h
      omega
  · intro c
    simp only [freshCopyList, oidsList, eraseOidsList]
    exact ⟨le_refl c, by intro o h; simp at h, by simp [eraseOidsList]⟩
  · intro c t ts r ih1 ih2
    have hr : r = freshCopy c t := rfl
    rw [hr] at ih2
    obtain ⟨h1, h2, h3⟩ := ih1
    obtain ⟨h4, h5, h6⟩ := ih2
    simp only [freshCopyList, oidsList, eraseOidsList, List.mem_append]
    refine ⟨by omega, ?_, by rw [h3, h6]⟩
    intro o2 ho2
    rcases ho2 with h | h
    · have := h2 o2 h
      omega
    · have := h5 o2 h
      omega

theorem freshCopyList_spec (c : Nat) (l : List STree) :
    c ≤ (freshCopyList c l).2
    ∧ (∀ o ∈ oidsList (freshCopyList c l).1, c ≤ o ∧ o < (freshCopyList c l).2)
    ∧ eraseOidsList (freshCopyList c l).1 = eraseOidsList l := by
  induction l generalizing c with
  | nil =>
    exact ⟨le_refl c, by intro o h; simp [freshCopyList, oidsList] at h,
      by simp [freshCopyList, eraseOidsList]⟩
  | cons t ts ih =>
    obtain ⟨h1, h2, h3⟩ := freshCopy_spec c t
    obtain ⟨h4, h5, h6⟩ := ih (freshCopy c t).2
    simp only [freshCopyList, oidsList, eraseOidsList, List.mem_append]
    refine ⟨by omega, ?_, by rw [h3, h6]⟩
    intro o2 ho2
    rcases ho2 with h | h
    · have := h2 o2 h
      omega
    · have := h5 o2 h
      omega

theorem freshChain_le (body : List STree) :
    ∀ (evs : List (List STree)) (lo hi : Nat), FreshChain body lo evs hi → lo ≤ hi := by
  intro evs
  induction evs with
  | nil => intro lo hi h; exact h
  | cons e es ih =>
    intro lo hi h
    obtain ⟨_, mid, hmid, _, hch⟩ := h
    exact le_trans hmid (ih mid hi hch)

theorem freshChain_mono (body : List STree) :
    ∀ (evs : List (List STree)) (lo lo2 hi : Nat), lo2 ≤ lo →
      FreshChain body lo evs hi → FreshChain body lo2 evs hi := by
  intro evs
  induction evs with
  | nil => intro lo lo2 hi hle h; exact le_trans hle h
  | cons e es ih =>
    intro lo lo2 hi hle h
    obtain ⟨he, mid, hmid, hbd, hch⟩ := h
    exact ⟨he, mid, le_trans hle hmid, fun o ho => ⟨le_trans hle (hbd o ho).1, (hbd o ho).2⟩, hch⟩

theorem freshChain_append (body : List STree) :
    ∀ (e1 e2 : List (List STree)) (lo mid hi : Nat),
      FreshChain body lo e1 mid → FreshChain body mid e2 hi →
      FreshChain body lo (e1 ++ e2) hi := by
  intro e1
  induction e1 with
  | nil =>
    intro e2 lo mid hi h1 h2
    exact freshChain_mono body e2 mid lo hi h1 h2
  | cons e es ih =>
    intro e2 lo mid hi h1 h2
    obtain ⟨he, m, hm, hbd, hch⟩ := h1
    exact ⟨he, m, hm, hbd, ih e2 m mid hi hch h2⟩

theorem freshChain_bounds (body : List STree) :
    ∀ (evs : List (List STree)) (lo hi : Nat), FreshChain body lo evs hi →
      ∀ e ∈ evs, eraseOidsList e = eraseOidsList body
        ∧ ∀ o ∈ oidsList e, lo ≤ o ∧ o < hi := by
  intro evs
  induction evs with
  | nil => intro lo hi h e he; simp at he
  | cons e2 es ih =>
    intro lo hi h e he
    obtain ⟨he2, mid, hmid, hbd, hch⟩ := h
    have hmh : mid ≤ hi := freshChain_le body es mid hi hch
    rcases List.mem_cons.mp he with rfl | hmem
    · exact ⟨he2, fun o ho => ⟨(hbd o ho).1, lt_of_lt_of_le (hbd o ho).2 hmh⟩⟩
    · have := ih mid hi hch e hmem
      exact ⟨this.1, fun o ho => ⟨le_trans hmid (this.2 o ho).1, (this.2 o ho).2⟩⟩

theorem freshChain_pairwise (body : List STree) :
    ∀ (evs : List (List STree)) (lo hi : Nat), FreshChain body lo evs hi →
      List.Pairwise (fun e1 e2 => ∀ o ∈ oidsList e1, o ∉ oidsList e2) evs := by
  intro evs
  induction evs with
  | nil => intro lo hi h; exact List.Pairwise.nil
  | cons e es ih =>
    intro lo hi h
    obtain ⟨he, mid, hmid, hbd, hch⟩ := h
    refine List.Pairwise.cons ?_ (ih mid hi hch)
    intro e2 he2 o ho ho2
    have h1 := (hbd o ho).2
    have h2 := ((freshChain_bounds body es mid hi hch e2 he2).2 o ho2).1
    omega

theorem pasteCount_of_pastehere (tag : String) (t : STree) (h : ispastehere tag t = true) :
    pasteCount tag t = 1 := by
  cases t with
  | sExpr o v => simp [pasteCount, h]
  | sName o i => simp [ispastehere] at h
  | sBlock o k b => simp [ispastehere] at h

theorem spliceWalk_spec (tag : String) (body : List STree) :
    ∀ (st : SpliceSt) (ts : List STree),
      st.counter ≤ (spliceWalk tag body st ts).2.counter
      ∧ ∃ evs, (spliceWalk tag body st ts).2.events = st.events ++ evs
          ∧ evs.length = pasteCountList tag ts
          ∧ (st.first = false → (spliceWalk tag body st ts).2.first = false
              ∧ FreshChain body st.counter evs (spliceWalk tag body st ts).2.counter)
          ∧ (st.first = true →
              ((spliceWalk tag body st ts).2.first = true ∧ evs = [])
              ∨ ((spliceWalk tag body st ts).2.first = false ∧ ∃ rest, evs = body :: rest
                  ∧ FreshChain body st.counter rest (spliceWalk tag body st ts).2.counter)) := by
  refine spliceWalk.induct tag body
    (fun st ts =>
      st.counter ≤ (spliceWalk tag body st ts).2.counter
      ∧ ∃ evs, (spliceWalk tag body st ts).2.events = st.events ++ evs
          ∧ evs.length = pasteCountList tag ts
          ∧ (st.first = false → (spliceWalk tag body st ts).2.first = false
              ∧ FreshChain body st.counter evs (spliceWalk tag body st ts).2.counter)
          ∧ (st.first = true →
              ((spliceWalk tag body st ts).2.first = true ∧ evs = [])
              ∨ ((spliceWalk tag body st ts).2.first = false ∧ ∃ rest, evs = body :: rest
                  ∧ FreshChain body st.counter rest (spliceWalk tag body st ts).2.counter)))
    (fun st t => ispastehere tag t = false →
      st.counter ≤ (spliceSub tag body st t).2.counter
      ∧ ∃ evs, (spliceSub tag body st t).2.events = st.events ++ evs
          ∧ evs.length = pasteCount tag t
          ∧ (st.first = false → (spliceSub tag body st t).2.first = false
              ∧ FreshChain body st.counter evs (spliceSub tag body st t).2.counter)
          ∧ (st.first = true →
              ((spliceSub tag body st t).2.first = true ∧ evs = [])
              ∨ ((spliceSub tag body st t).2.first = false ∧ ∃ rest, evs = body :: rest
                  ∧ FreshChain body st.counter rest (spliceSub tag body st t).2.counter)))
    ?_ ?_ ?_ ?_ ?_ ?_
  · -- sBlock: descend into the nested statement list
    intro st o k b ih hisp
    obtain ⟨h1, evs, h2, h3, h4, h5⟩ := ih
    refine ⟨?_, evs, ?_, ?_, ?_, ?_⟩ <;>
      simp only [spliceSub, pasteCount] <;>
      [exact h1; exact h2; exact h3; exact h4; exact h5]
  · -- leaf statements: unchanged, no events
    intro st t hnb hisp
    cases t with
    | sExpr o v =>
      refine ⟨le_refl _, [], by simp [spliceSub], ?_, ?_, ?_⟩
      · simp [pasteCount, hisp]
      · intro hf
        exact ⟨by simp [spliceSub, hf], by simp [spliceSub, FreshChain]⟩
      · intro hf
        exact Or.inl ⟨by simp [spliceSub, hf], rfl⟩
    | sName o i =>
      refine ⟨le_refl _, [], by simp [spliceSub], by simp [pasteCount], ?_, ?_⟩
      · intro hf
        exact ⟨by simp [spliceSub, hf], by simp [spliceSub, FreshChain]⟩
      · intro hf
        exact Or.inl ⟨by simp [spliceSub, hf], rfl⟩
    | sBlock o2 k2 b2 => exact absurd rfl (hnb o2 k2 b2)
  · -- empty statement list
    intro st
    refine ⟨le_refl _, [], by simp [spliceWalk], by simp [pasteCountList], ?_, ?_⟩
    · intro hf
      exact ⟨by simp [spliceWalk, hf], le_refl _⟩
    · intro hf
      exact Or.inl ⟨by simp [spliceWalk, hf], rfl⟩
  · -- paste-here indicator, first occurrence: splice body itself
    intro st t ts hp hf ih
    obtain ⟨h1, evs, h2, h3, h4, h5⟩ := ih
    obtain ⟨h6, h7⟩ := h4 rfl
    have hred : spliceWalk tag body st (t :: ts)
        = (body ++ (spliceWalk tag body ⟨false, st.counter, st.events ++ [body]⟩ ts).1,
            (spliceWalk tag body ⟨false, st.counter, st.events ++ [body]⟩ ts).2) := by
      simp [spliceWalk, hp, hf]
    rw [hred]
    refine ⟨by simpa using h1, body :: evs, ?_, ?_, ?_, ?_⟩
    · simpa using h2
    · simp [pasteCountList, pasteCount_of_pastehere tag t hp, h3, Nat.add_comm]
    · intro hff
      rw [hf] at hff
      exact absurd hff (by simp)
    · intro _
      exact Or.inr ⟨h6, evs, rfl, h7⟩
  · -- paste-here indicator, later occurrence: splice a deep copy
    intro st t ts hp hf c ih
    have hc : c = freshCopyList st.counter body := rfl
    rw [hc] at ih
    have hf2 : st.first = false := by
      cases hsf : st.first
      · rfl
      · exact absurd hsf hf
    obtain ⟨h1, evs, h2, h3, h4, h5⟩ := ih
    obtain ⟨h6, h7⟩ := h4 (by simp [hf2])
    obtain ⟨hs1, hs2, hs3⟩ := freshCopyList_spec st.counter body
    have hred : spliceWalk tag body st (t :: ts)
        = ((freshCopyList st.counter body).1
              ++ (spliceWalk tag body ⟨st.first, (freshCopyList st.counter body).2,
                    st.events ++ [(freshCopyList st.counter body).1]⟩ ts).1,
            (spliceWalk tag body ⟨st.first, (freshCopyList st.counter body).2,
                st.events ++ [(freshCopyList st.counter body).1]⟩ ts).2) := by
      simp [spliceWalk, hp, hf2]
    rw [hred]
    refine ⟨by simp at h1 ⊢; omega, (freshCopyList st.counter body).1 :: evs, ?_, ?_, ?_, ?_⟩
    · simpa using h2
    · simp [pasteCountList, pasteCount_of_pastehere tag t hp, h3, Nat.add_comm]
    · intro _
      refine ⟨h6, hs3, (freshCopyList st.counter body).2, hs1, fun o ho => hs2 o ho, ?_⟩
      simpa using h7
    · intro hff
      rw [hf2] at hff
      exact absurd hff (by simp)
  · -- not a paste-here indicator: descend, then continue with the rest
    intro st t ts hp r1 ih2 ih1
    have hr1 : r1 = spliceSub tag body st t := rfl
    rw [hr1] at ih1
    have hpf : ispastehere tag t = false := by
      cases hq : ispastehere tag t
      · rfl
      · exact absurd hq hp
    obtain ⟨g1, evs1, g2, g3, g4, g5⟩ := ih2 hpf
    obtain ⟨h1, evs2, h2, h3, h4, h5⟩ := ih1
    have hred : spliceWalk tag body st (t :: ts)
        = ((spliceSub tag body st t).1
              :: (spliceWalk tag body (spliceSub tag body st t).2 ts).1,
            (spliceWalk tag body (spliceSub tag body st t).2 ts).2) := by
      simp [spliceWalk, hpf]
    rw [hred]
    dsimp only
    refine ⟨by omega, evs1 ++ evs2, ?_, ?_, ?_, ?_⟩
    · rw [h2, g2, List.append_assoc]
    · simp [pasteCountList, g3, h3]
    · intro hff
      obtain ⟨g6, g7⟩ := g4 hff
      obtain ⟨h6, h7⟩ := h4 g6
      exact ⟨h6, freshChain_append body evs1 evs2 st.counter
        (spliceSub tag body st t).2.counter _ g7 h7⟩
    · intro hff
      rcases g5 hff with ⟨g6, g7⟩ | ⟨g6, rest1, g7, g8⟩
      · subst g7
        rcases h5 g6 with ⟨h6, h7⟩ | ⟨h6, rest2, h7, h8⟩
        · subst h7
          exact Or.inl ⟨h6, rfl⟩
        · subst h7
          exact Or.inr ⟨h6, rest2, rfl,
            freshChain_mono body rest2 (spliceSub tag body st t).2.counter st.counter _ g1 h8⟩
      · subst g7
        obtain ⟨h6, h7⟩ := h4 g6
        exact Or.inr ⟨h6, rest1 ++ evs2, by simp,
          freshChain_append body rest1 evs2 st.counter
            (spliceSub tag body st t).2.counter _ g8 h7⟩

/-- C10: for a non-empty `body` and a template in which the paste-here
indicator (a bare-identifier expression statement whose name equals the
tag) occurs at least twice, splice_statements replaces the first
occurrence in scan order with the `body` list itself and every later
occurrence with a deep copy of `body`: each later splice is structurally
equal to `body` but, provided the fresh-identity counter exceeds every
object id of `body`, built entirely from fresh objects, its object ids
disjoint from `body`'s and from every other copy's — so subsequent edits
through one spliced occurrence cannot affect the others. -/
theorem splice_statements_first_inplace_later_deepcopies
    (body template : List STree) (tag : String) (counter : Nat)
    (hb : body ≠ [])
    (hcount : 2 ≤ pasteCountList tag template)
    (hoids : ∀ o ∈ oidsList body, o < counter) :
    ∃ rest : List (List STree),
      (spliceWalk tag body ⟨true, counter, []⟩ template).2.events = body :: rest
      ∧ rest ≠ []
      ∧ (∀ e ∈ rest, eraseOidsList e = eraseOidsList body)
      ∧ (∀ e ∈ rest, ∀ o ∈ oidsList e, o ∉ oidsList body)
      ∧ List.Pairwise (fun e1 e2 => ∀ o ∈ oidsList e1, o ∉ oidsList e2) rest
      ∧ spliceStatements body template tag counter
          = .ok (spliceWalk tag body ⟨true, counter, []⟩ template).1 := by
  obtain ⟨h1, evs, h2, h3, h4, h5⟩ := spliceWalk_spec tag body ⟨true, counter, []⟩ template
  rcases h5 rfl with ⟨_, hnil⟩ | ⟨_, rest, hevs, hch⟩
  · rw [hnil] at h3
    simp at h3
    omega
  · subst hevs
    have hbne : body.isEmpty = false := by
      cases body
      · exact absurd rfl hb
      · rfl
    have htne : template.isEmpty = false := by
      cases template
      · simp [pasteCountList] at h3
      · rfl
    refine ⟨rest, by simpa using h2, ?_, ?_, ?_, ?_, ?_⟩
    · intro hr
      rw [hr] at h3
      simp at h3
      omega
    · intro e he
      exact (freshChain_bounds body rest counter _ hch e he).1
    · intro e he o ho hbo
      have := ((freshChain_bounds body rest counter _ hch e he).2 o ho).1
      have := hoids o hbo
      omega
    · exact freshChain_pairwise body rest counter _ hch
    · simp [spliceStatements, hbne, htne]

/-- C10 witness: the theorem at a concrete body and a template with two
paste-here indicators. -/
theorem splice_statements_first_inplace_later_deepcopies_witness :
    ([STree.sName 0 "x"] ≠ ([] : List STree))
    ∧ 2 ≤ pasteCountList "p" [STree.sExpr 1 (STree.sName 2 "p"),
        STree.sExpr 3 (STree.sName 4 "p")]
    ∧ (∀ o ∈ oidsList [STree.sName 0 "x"], o < 6)
    ∧ ∃ rest : List (List STree),
        (spliceWalk "p" [STree.sName 0 "x"] ⟨true, 6, []⟩
            [STree.sExpr 1 (STree.sName 2 "p"),
              STree.sExpr 3 (STree.sName 4 "p")]).2.events
          = [STree.sName 0 "x"] :: rest
        ∧ rest ≠ []
        ∧ (∀ e ∈ rest, eraseOidsList e = eraseOidsList [STree.sName 0 "x"])
        ∧ (∀ e ∈ rest, ∀ o ∈ oidsList e, o ∉ oidsList [STree.sName 0 "x"])
        ∧ List.Pairwise (fun e1 e2 => ∀ o ∈ oidsList e1, o ∉ oidsList e2) rest
        ∧ spliceStatements [STree.sName 0 "x"]
            [STree.sExpr 1 (STree.sName 2 "p"), STree.sExpr 3 (STree.sName 4 "p")] "p" 6
            = .ok (spliceWalk "p" [STree.sName 0 "x"] ⟨true, 6, []⟩
                [STree.sExpr 1 (STree.sName 2 "p"),
                  STree.sExpr 3 (STree.sName 4 "p")]).1 :=
  ⟨by simp, by decide, by decide,
    splice_statements_first_inplace_later_deepcopies [STree.sName 0 "x"]
      [STree.sExpr 1 (STree.sName 2 "p"), STree.sExpr 3 (STree.sName 4 "p")] "p" 6
      (by simp) (by decide) (by decide)⟩
